import Mathlib

/-!
Verification development for the narou_download repository.

Go strings are modeled as `List Char` (rune sequences).  The regexp-based
rewrite passes of `html_converter.go` all have the same shape: a leftmost,
non-overlapping scan that either fires a match at the current position
(consuming the matched span and emitting a replacement) or moves one rune
forward.  That scan is captured once by `genScan`, driven by a per-pass
`step` function that attempts a match at the current position.  Each `step`
function is a direct transcription of the corresponding Go regular
expression (the patterns are simple enough that leftmost-first matching
reduces to maximal-munch scanning, which the step functions implement).

The fuel argument of `genScan` makes every definition structurally
recursive and hence computable by `decide`/`rfl`; passes invoke it with
fuel equal to the input length, which is always sufficient because every
match consumes at least one rune.
-/

namespace Narou

/-- Case-insensitive match of one rune of the subject (`c`) against one
rune of a pattern (`p`).  Every case-insensitive pattern in the source is
ASCII lowercase, for which Go's `(?i)` folding accepts exactly the rune
itself and its ASCII uppercase variant. -/
def ciMatch (p c : Char) : Bool :=
  c = p || (decide ('a' ≤ p) && decide (p ≤ 'z') && decide (c.toNat + 32 = p.toNat))

/-- Case-insensitive prefix test (pattern first). -/
def startsWithCI : List Char → List Char → Bool
  | [], _ => true
  | _ :: _, [] => false
  | p :: ps, c :: cs => if ciMatch p c then startsWithCI ps cs else false

/-- Exact prefix test (pattern first). -/
def hasPrefixEx : List Char → List Char → Bool
  | [], _ => true
  | _ :: _, [] => false
  | p :: ps, c :: cs => if c = p then hasPrefixEx ps cs else false

/-- Index of the first occurrence of `target`, aborting (like `.`-based
lazy regexp matching, where `.` does not match a newline) as soon as a
newline is seen. -/
def seekChar (target : Char) : List Char → Option Nat
  | [] => none
  | c :: rest =>
    if c = target then some 0
    else if c = '\n' then none
    else (seekChar target rest).map (· + 1)

/-- Index of the first case-insensitive occurrence of `pat`, aborting when
a newline is seen before the match position. -/
def seekCI (pat : List Char) : List Char → Option Nat
  | [] => none
  | c :: rest =>
    if startsWithCI pat (c :: rest) then some 0
    else if c = '\n' then none
    else (seekCI pat rest).map (· + 1)

/-- Index of the first exact occurrence of `pat`, aborting when a newline
is seen before the match position. -/
def seekEx (pat : List Char) : List Char → Option Nat
  | [] => none
  | c :: rest =>
    if hasPrefixEx pat (c :: rest) then some 0
    else if c = '\n' then none
    else (seekEx pat rest).map (· + 1)

/-- Generic leftmost non-overlapping replacement scan.  `step l` attempts
a match at the head of `l`; `some (out, next)` fires the match, emitting
`out` and continuing at `next`; `none` copies one rune and moves on.
Exhausted fuel returns the remaining input unchanged (never reached when
fuel ≥ input length and every match consumes at least one rune). -/
def genScan (step : List Char → Option (List Char × List Char)) :
    Nat → List Char → List Char
  | 0, l => l
  | _ + 1, [] => []
  | fuel + 1, c :: rest =>
    match step (c :: rest) with
    | some (out, next) => out ++ genScan step fuel next
    | none => c :: genScan step fuel rest

/-- A pass runs the scan with fuel equal to the input length. -/
def runPass (step : List Char → Option (List Char × List Char))
    (l : List Char) : List Char :=
  genScan step l.length l

theorem genScan_nil (step) (f : Nat) : genScan step f [] = [] := by
  cases f <;> rfl

/-- Fuel irrelevance: any two sufficient fuels give the same result, as
long as every match strictly consumes input. -/
theorem genScan_fuel (step)
    (hstep : ∀ l out next, step l = some (out, next) → next.length < l.length) :
    ∀ f₁ f₂ l, l.length ≤ f₁ → l.length ≤ f₂ →
      genScan step f₁ l = genScan step f₂ l := by
  intro f₁
  induction f₁ with
  | zero =>
    intro f₂ l h1 _
    have : l = [] := List.eq_nil_of_length_eq_zero (Nat.le_zero.mp h1)
    subst this
    simp [genScan_nil]
  | succ a ih =>
    intro f₂ l h1 h2
    cases l with
    | nil => simp [genScan_nil]
    | cons c rest =>
      cases f₂ with
      | zero => simp at h2
      | succ b =>
        show genScan step (a + 1) (c :: rest) = genScan step (b + 1) (c :: rest)
        simp only [genScan]
        cases hs : step (c :: rest) with
        | none =>
          have h1' : rest.length ≤ a := by simpa using h1
          have h2' : rest.length ≤ b := by simpa using h2
          show c :: genScan step a rest = c :: genScan step b rest
          rw [ih b rest h1' h2']
        | some p =>
          obtain ⟨out, next⟩ := p
          have hlt := hstep _ _ _ hs
          have h1' : next.length ≤ a := by
            simp at h1 hlt; omega
          have h2' : next.length ≤ b := by
            simp at h2 hlt; omega
          show out ++ genScan step a next = out ++ genScan step b next
          rw [ih b next h1' h2']

/-- Walking lemma: a region `X` on which `step` never fires is copied
verbatim, for any fuel. -/
theorem genScan_walk (step) :
    ∀ (X Y : List Char) (f : Nat),
      (∀ n, n < X.length → step (X.drop n ++ Y) = none) →
      genScan step f (X ++ Y) = X ++ genScan step (f - X.length) Y := by
  intro X
  induction X with
  | nil => intro Y f _; simp
  | cons c X2 ih =>
    intro Y f h
    cases f with
    | zero => simp [genScan, genScan_nil]
    | succ g =>
      have h0 : step (c :: (X2 ++ Y)) = none := by
        have := h 0 (by simp)
        simpa using this
      show genScan step (g + 1) (c :: (X2 ++ Y)) = _
      simp only [genScan]
      rw [h0]
      have ih' := ih Y g (fun n hn => by
        have := h (n + 1) (by simpa using Nat.succ_lt_succ hn)
        simpa using this)
      rw [ih']
      simp only [List.cons_append, List.length_cons, Nat.succ_sub_succ]

/-- Identity lemma: if `step` never fires anywhere in `l`, the pass copies
`l` unchanged, for any fuel. -/
theorem genScan_id (step) (l : List Char) (f : Nat)
    (h : ∀ n, n < l.length → step (l.drop n) = none) :
    genScan step f l = l := by
  have := genScan_walk step l [] f (by simpa using h)
  simpa [genScan_nil] using this

/-! Conversion passes of `html_converter.go`. -/

/-- First half of `brToAozora`: `regexp [\r\n]+` replaced by the empty
string, i.e. every CR and LF rune is deleted. -/
def removeCRLF (l : List Char) : List Char :=
  l.filter (fun c => !(c = '\r' ∨ c = '\n'))

/-- Match attempt for `<br.*?>` (case-sensitive, as in the source: this is
the one tag pattern without the `(?i)` flag). -/
def brStep (l : List Char) : Option (List Char × List Char) :=
  if hasPrefixEx "<br".data l then
    match seekChar '>' (l.drop 3) with
    | some j => some (['\n'], (l.drop 3).drop (j + 1))
    | none => none
  else none

/-- The `brToAozora` method: delete CR/LF runes, then rewrite each
`<br.*?>` match to a newline. -/
def brToAozora (l : List Char) : List Char :=
  runPass brStep (removeCRLF l)

/-- Match attempt for `(?i)\n?</p>`. -/
def pStep (l : List Char) : Option (List Char × List Char) :=
  match l with
  | c :: rest =>
    if c = '\n' then
      if startsWithCI "</p>".data rest then some (['\n'], rest.drop 4) else none
    else
      if startsWithCI "</p>".data (c :: rest) then some (['\n'], rest.drop 3)
      else none
  | [] => none

/-- The `pToAozora` method. -/
def pToAozora (l : List Char) : List Char :=
  runPass pStep l

/-- Match attempt for `<.+?>`: a `<`, at least one rune other than a
newline, then the first `>`. -/
def tagStep (l : List Char) : Option (List Char × List Char) :=
  match l with
  | c :: c2 :: rest =>
    if c = '<' then
      if c2 = '\n' then none
      else
        match seekChar '>' rest with
        | some j => some ([], rest.drop (j + 1))
        | none => none
    else none
  | _ => none

/-- The `deleteTag` method. -/
def deleteTag (l : List Char) : List Char :=
  runPass tagStep l

/-- The `《`/`》` swap performed at the start of `rubyToAozora`. -/
def swapAngle (l : List Char) : List Char :=
  l.map (fun c => if c = '《' then '≪' else if c = '》' then '≫' else c)

/-- Position of the lazy `(.+?)</ruby>` boundary: the first
case-insensitive `</ruby>` at index ≥ 1 (the capture needs at least one
rune), aborting at a newline. -/
def findRubyClose (l : List Char) : Option Nat :=
  match l with
  | [] => none
  | c :: rest =>
    if c = '\n' then none else (seekCI "</ruby>".data rest).map (· + 1)

/-- Splitting on the first case-insensitive occurrence of `pat`
(`regexp.Split(s, 2)`); `none` when `pat` does not occur. -/
def splitFirstCI (pat : List Char) : List Char → Option (List Char × List Char)
  | [] => none
  | c :: rest =>
    if startsWithCI pat (c :: rest) then some ([], (c :: rest).drop pat.length)
    else (splitFirstCI pat rest).map (fun p => (c :: p.1, p.2))

/-- First component of `regexp.Split(l, 2)`: everything before the first
match, or `l` itself when there is none. -/
def bsplit (pat : List Char) (l : List Char) : List Char :=
  match splitFirstCI pat l with
  | none => l
  | some p => p.1

/-- The replacement callback of `rubyToAozora`, applied to the capture of
`(?i)<ruby>(.+?)</ruby>`: split at the first `<rt>`; without one, strip
tags and return; otherwise take each part up to its first `<rp>`, strip
tags, and emit `｜base《gloss》`. -/
def rubyEmit (content : List Char) : List Char :=
  match splitFirstCI "<rt>".data content with
  | none => deleteTag content
  | some p =>
    "｜".data ++ deleteTag (bsplit "<rp>".data p.1) ++ "《".data ++
      deleteTag (bsplit "<rp>".data p.2) ++ "》".data

/-- Match attempt for `(?i)<ruby>(.+?)</ruby>` with its callback. -/
def rubyStep (l : List Char) : Option (List Char × List Char) :=
  if startsWithCI "<ruby>".data l then
    match findRubyClose (l.drop 6) with
    | some k => some (rubyEmit ((l.drop 6).take k), (l.drop 6).drop (k + 7))
    | none => none
  else none

/-- The `rubyToAozora` method: swap `《`/`》`, then rewrite ruby spans. -/
def rubyToAozora (l : List Char) : List Char :=
  runPass rubyStep (swapAngle l)

/-- Match attempt for a fixed case-insensitive token. -/
def tokenStep (pat rep : List Char) (l : List Char) :
    Option (List Char × List Char) :=
  if startsWithCI pat l then some (rep, l.drop pat.length) else none

/-- Replacement of every case-insensitive occurrence of a fixed token. -/
def replaceTokenCI (pat rep : List Char) (l : List Char) : List Char :=
  runPass (tokenStep pat rep) l

/-- The `bToAozora` method. -/
def bToAozora (l : List Char) : List Char :=
  replaceTokenCI "</b>".data "［＃太字終わり］".data
    (replaceTokenCI "<b>".data "［＃太字］".data l)

/-- The `iToAozora` method. -/
def iToAozora (l : List Char) : List Char :=
  replaceTokenCI "</i>".data "［＃斜体終わり］".data
    (replaceTokenCI "<i>".data "［＃斜体］".data l)

/-- The `sToAozora` method. -/
def sToAozora (l : List Char) : List Char :=
  replaceTokenCI "</s>".data "［＃取消線終わり］".data
    (replaceTokenCI "<s>".data "［＃取消線］".data l)

/-- Position of the lazy `(.+?)</em>` boundary (exact match; the `em`
pattern carries no `(?i)` flag). -/
def findEmClose (l : List Char) : Option Nat :=
  match l with
  | [] => none
  | c :: rest =>
    if c = '\n' then none else (seekEx "</em>".data rest).map (· + 1)

/-- Match attempt for `<em class="emphasisDots">(.+?)</em>` with the
`［＃傍点］$1［＃傍点終わり］` replacement template. -/
def emStep (l : List Char) : Option (List Char × List Char) :=
  if hasPrefixEx "<em class=\"emphasisDots\">".data l then
    match findEmClose (l.drop 25) with
    | some k =>
      some ("［＃傍点］".data ++ (l.drop 25).take k ++ "［＃傍点終わり］".data,
        (l.drop 25).drop (k + 5))
    | none => none
  else none

/-- The `emToSesame` method. -/
def emToSesame (l : List Char) : List Char :=
  runPass emStep l

/-- Head of the list exists and is not a newline: the first rune of a
lazy `.+?` capture. -/
def headOkNL : List Char → Bool
  | [] => false
  | c :: _ => !(c = '\n')

/-- Match attempt for the default illustration pattern
`<img.+?src="(?P<src>.+?)".*?>`.  The converter is modeled in its
default configuration (`NewHTMLConverter`), where `illustCurrentURL` is
empty, so the captured source is emitted unresolved — `imgToAozora`
performs `net/url` resolution only when a base URL has been set. -/
def imgStep (l : List Char) : Option (List Char × List Char) :=
  if hasPrefixEx "<img".data l && headOkNL (l.drop 4) then
    match seekEx "src=\"".data ((l.drop 4).drop 1) with
    | none => none
    | some j0 =>
      if headOkNL ((l.drop 4).drop (j0 + 6)) then
        match seekChar '"' (((l.drop 4).drop (j0 + 6)).drop 1) with
        | none => none
        | some m0 =>
          match seekChar '>' (((l.drop 4).drop (j0 + 6)).drop (m0 + 2)) with
          | none => none
          | some g =>
            some ("［＃挿絵（".data ++ ((l.drop 4).drop (j0 + 6)).take (m0 + 1)
                ++ "）入る］".data,
              (((l.drop 4).drop (j0 + 6)).drop (m0 + 2)).drop (g + 1))
      else none
  else none

/-- The `imgToAozora` method (default configuration). -/
def imgToAozora (l : List Char) : List Char :=
  runPass imgStep l

/-! Entity restoration (`restoreHTMLEntity`). -/

/-- The apostrophe rune (U+0027). -/
def aposC : Char := Char.ofNat 39

/-- The named-entity replacement table of `restoreHTMLEntity`, in source
order.  In Go this is a `map[string]string`, iterated in an unspecified
order; determinism questions are therefore stated over arbitrary orders
(`restoreHTMLEntityOrd`), with this list as the canonical order. -/
def entityPairs : List (List Char × List Char) :=
  [("&amp;".data, "&".data), ("&lt;".data, "<".data), ("&gt;".data, ">".data),
   ("&quot;".data, "\"".data), ("&apos;".data, [aposC]),
   ("&nbsp;".data, " ".data), ("&#39;".data, [aposC]),
   ("&#34;".data, "\"".data), ("&hellip;".data, "…".data),
   ("&mdash;".data, "—".data), ("&ndash;".data, "–".data),
   ("&lsquo;".data, [aposC]), ("&rsquo;".data, [aposC]),
   ("&ldquo;".data, "“".data), ("&rdquo;".data, "”".data)]

/-- Match attempt for a fixed exact token (`strings.ReplaceAll`). -/
def replStep (pat rep : List Char) (l : List Char) :
    Option (List Char × List Char) :=
  if hasPrefixEx pat l then some (rep, l.drop pat.length) else none

/-- Replacement of every exact occurrence of a fixed token, leftmost and
non-overlapping, exactly as `strings.ReplaceAll`. -/
def replaceAllEx (pat rep : List Char) (l : List Char) : List Char :=
  runPass (replStep pat rep) l

/-- Decimal digit test (`\d` in Go regexp is ASCII). -/
def isDigitC (c : Char) : Bool := decide ('0' ≤ c) && decide (c ≤ '9')

/-- Value of a decimal digit string. -/
def digitsToNat (ds : List Char) : Nat :=
  ds.foldl (fun acc c => acc * 10 + (c.toNat - 48)) 0

/-- Hexadecimal digit test, `[0-9a-fA-F]`. -/
def isHexC (c : Char) : Bool :=
  isDigitC c || (decide ('a' ≤ c) && decide (c ≤ 'f')) ||
    (decide ('A' ≤ c) && decide (c ≤ 'F'))

/-- Value of a hexadecimal digit. -/
def hexVal (c : Char) : Nat :=
  if isDigitC c then c.toNat - 48
  else if decide ('a' ≤ c) && decide ('f' ≥ c) then c.toNat - 87
  else c.toNat - 55

/-- Value of a hexadecimal digit string. -/
def hexToNat (ds : List Char) : Nat :=
  ds.foldl (fun acc c => acc * 16 + hexVal c) 0

/-- Largest value `fmt.Sscanf` accepts into an `int` (64-bit); larger
numerals make `Sscanf` fail, and the match is then kept unchanged. -/
def int64Max : Nat := 9223372036854775807

/-- The rune produced by Go's `string(rune(code))` for a non-negative
`int` code: the conversion to `rune` truncates to a signed 32-bit value,
and negative values, surrogates and values beyond U+10FFFF render as
U+FFFD. -/
def goRune (n : Nat) : Char :=
  let v := n % 4294967296
  if 2147483648 ≤ v then Char.ofNat 65533
  else if 55296 ≤ v ∧ v ≤ 57343 then Char.ofNat 65533
  else if 1114111 < v then Char.ofNat 65533
  else Char.ofNat v

/-- Match attempt for the decimal character reference `&#(\d+);` with its
callback (Sscanf the digits, emit `string(rune(code))`; on Sscanf
overflow the match is returned unchanged). -/
def numStep (l : List Char) : Option (List Char × List Char) :=
  match l with
  | a :: b :: rest =>
    if a = '&' ∧ b = '#' then
      let ds := rest.takeWhile isDigitC
      if ds = [] then none
      else
        match rest.drop ds.length with
        | c :: after =>
          if c = ';' then
            if int64Max < digitsToNat ds then
              some ('&' :: '#' :: (ds ++ [';']), after)
            else some ([goRune (digitsToNat ds)], after)
          else none
        | [] => none
    else none
  | _ => none

/-- Match attempt for the hexadecimal character reference
`&#x([0-9a-fA-F]+);` with its callback. -/
def hexStep (l : List Char) : Option (List Char × List Char) :=
  match l with
  | a :: b :: x :: rest =>
    if a = '&' ∧ b = '#' ∧ x = 'x' then
      let ds := rest.takeWhile isHexC
      if ds = [] then none
      else
        match rest.drop ds.length with
        | c :: after =>
          if c = ';' then
            if int64Max < hexToNat ds then
              some ('&' :: '#' :: 'x' :: (ds ++ [';']), after)
            else some ([goRune (hexToNat ds)], after)
          else none
        | [] => none
    else none
  | _ => none

/-- The `restoreHTMLEntity` function, parameterized by the iteration
order of the named-entity map: each named replacement in turn, then the
decimal pass, then the hexadecimal pass. -/
def restoreHTMLEntityOrd (ord : List (List Char × List Char))
    (l : List Char) : List Char :=
  runPass hexStep (runPass numStep
    (ord.foldl (fun acc p => replaceAllEx p.1 p.2 acc) l))

/-- The `restoreHTMLEntity` function at the canonical (source listing)
order. -/
def restoreHTMLEntity (l : List Char) : List Char :=
  restoreHTMLEntityOrd entityPairs l

/-! The converter object and `ToAozora`. -/

/-- The `HTMLConverter` struct.  A compiled `*regexp.Regexp` is modeled
by the pattern text it was compiled from (only compile success/failure
and the default pattern are relevant to the claims). -/
structure HTMLConverter where
  text : List Char
  stripDecorationTag : Bool
  illustCurrentURL : List Char
  illustGrepPattern : List Char

/-- The default illustration pattern compiled in `NewHTMLConverter`. -/
def defaultIllustPattern : List Char := "<img.+?src=\"(?P<src>.+?)\".*?>".data

/-- The `NewHTMLConverter` constructor. -/
def NewHTMLConverter (text : List Char) : HTMLConverter :=
  { text := text
    stripDecorationTag := false
    illustCurrentURL := []
    illustGrepPattern := defaultIllustPattern }

/-- Validity of a pattern under `regexp.Compile`, modeled as a syntactic
scan: parentheses must balance (never closing below zero), character
classes and trailing escapes must be closed.  This classifies correctly
every pattern appearing in the theorems below (e.g. `"("` is rejected by
Go's `regexp.Compile` with `missing closing )`). -/
def regexpCompileOk : List Char → Bool :=
  go 0 false
where
  /-- Scan state: open-parenthesis depth and whether inside `[...]`. -/
  go : Nat → Bool → List Char → Bool
    | depth, inClass, [] => depth = 0 && !inClass
    | depth, inClass, c :: rest =>
      if c = '\\' then
        match rest with
        | [] => false
        | _ :: rest2 => go depth inClass rest2
      else if inClass then
        if c = ']' then go depth false rest else go depth true rest
      else if c = '[' then go depth true rest
      else if c = '(' then go (depth + 1) inClass rest
      else if c = ')' then
        match depth with
        | 0 => false
        | d + 1 => go d inClass rest
      else go depth inClass rest

/-- The `SetIllustSetting` method: the receiver's `illustCurrentURL` is
overwritten first; a non-empty pattern is then compiled, and only on
success is the stored compiled pattern replaced.  Returns the updated
converter and the error (`some` of the message on compile failure). -/
def SetIllustSetting (h : HTMLConverter) (currentURL grepPattern : List Char) :
    HTMLConverter × Option (List Char) :=
  let h1 := { h with illustCurrentURL := currentURL }
  if grepPattern = [] then (h1, none)
  else if regexpCompileOk grepPattern then
    ({ h1 with illustGrepPattern := grepPattern }, none)
  else (h1, some ("invalid grep pattern".data))

/-- The `ToAozora` method for a default-configured converter
(`NewHTMLConverter`, no custom illustration setting), parameterized by
the named-entity iteration order. -/
def ToAozoraOrd (stripDecorationTag preHTML : Bool)
    (ord : List (List Char × List Char)) (text : List Char) : List Char :=
  let t1 := if preHTML then text else brToAozora text
  let t2 := pToAozora t1
  let t3 := rubyToAozora t2
  let t4 := if stripDecorationTag then t3 else sToAozora (iToAozora (bToAozora t3))
  let t5 := imgToAozora t4
  let t6 := emToSesame t5
  let t7 := deleteTag t6
  restoreHTMLEntityOrd ord t7

/-- The `ToAozora` method at the canonical entity order. -/
def ToAozora (stripDecorationTag preHTML : Bool) (text : List Char) :
    List Char :=
  ToAozoraOrd stripDecorationTag preHTML entityPairs text

/-! Orchestration (`app.go`): episode/novel code extraction, skip
detection, and the serial download loop of `downloadRensai`. -/

/-- ASCII lowercase letter test (`[a-z]`). -/
def isLowerC (c : Char) : Bool := decide ('a' ≤ c) && decide (c ≤ 'z')

/-- ASCII upper-casing, as `strings.ToUpper` on the ASCII-only inputs
produced by the novel-code patterns. -/
def upperA (c : Char) : Char :=
  if 'a' ≤ c ∧ c ≤ 'z' then Char.ofNat (c.toNat - 32) else c

/-- Match attempt for `/n[0-9]+[a-z]+/([0-9]+)/?` at the current
position; returns the captured digits.  The digit and letter runs are
taken maximally, which coincides with the regexp semantics because no
shorter run can be completed. -/
def epMatchAt (l : List Char) : Option (List Char) :=
  match l with
  | c1 :: c2 :: rest =>
    if c1 = '/' ∧ c2 = 'n' then
      let ds := rest.takeWhile isDigitC
      if ds = [] then none
      else
        let r2 := rest.drop ds.length
        let ls := r2.takeWhile isLowerC
        if ls = [] then none
        else
          match r2.drop ls.length with
          | c3 :: r3 =>
            if c3 = '/' then
              let es := r3.takeWhile isDigitC
              if es = [] then none else some es
            else none
          | [] => none
    else none
  | _ => none

/-- Leftmost match of the episode-number pattern. -/
def findEpNum : List Char → Option (List Char)
  | [] => none
  | c :: rest =>
    match epMatchAt (c :: rest) with
    | some es => some es
    | none => findEpNum rest

/-- Match attempt for `/n([0-9]+[a-z]+)/` at the current position;
returns the capture. -/
def ncMatchAt (l : List Char) : Option (List Char) :=
  match l with
  | c1 :: c2 :: rest =>
    if c1 = '/' ∧ c2 = 'n' then
      let ds := rest.takeWhile isDigitC
      if ds = [] then none
      else
        let r2 := rest.drop ds.length
        let ls := r2.takeWhile isLowerC
        if ls = [] then none
        else
          match r2.drop ls.length with
          | c3 :: _ => if c3 = '/' then some (ds ++ ls) else none
          | [] => none
    else none
  | _ => none

/-- Leftmost match of the novel-code pattern. -/
def findNC : List Char → Option (List Char)
  | [] => none
  | c :: rest =>
    match ncMatchAt (c :: rest) with
    | some m => some m
    | none => findNC rest

/-- The `strings.Split` on `/` (empty fields kept). -/
def splitOnChar (sep : Char) : List Char → List (List Char)
  | [] => [[]]
  | c :: rest =>
    match splitOnChar sep rest with
    | [] => [[]]
    | h :: t => if c = sep then [] :: h :: t else (c :: h) :: t

/-- Fallback scan of `extractEpisodeNumberFromURL`: the first `/`-part
with prefix `n` and length > 1 whose successor part is a non-empty digit
string. -/
def epFallback : List (List Char) → Option (List Char)
  | p :: q :: rest =>
    if p.head? = some 'n' ∧ 1 < p.length ∧ q ≠ [] ∧ q ≠ ['/'] ∧ q.all isDigitC
    then some q
    else epFallback (q :: rest)
  | _ => none

/-- The `extractEpisodeNumberFromURL` function. -/
def extractEpisodeNumberFromURL (url : List Char) : List Char :=
  match findEpNum url with
  | some es => es
  | none =>
    match epFallback (splitOnChar '/' url) with
    | some q => q
    | none => "1".data

/-- Fallback scan of `extractNovelCodeFromURL`: the first `/`-part that
is `n` followed by lowercase letters and digits only. -/
def ncFallback : List (List Char) → Option (List Char)
  | [] => none
  | p :: rest =>
    if p.head? = some 'n' ∧ 1 < p.length ∧
        (p.drop 1).all (fun c => isLowerC c || isDigitC c)
    then some (p.map upperA)
    else ncFallback rest

/-- The `extractNovelCodeFromURL` function. -/
def extractNovelCodeFromURL (url : List Char) : List Char :=
  match findNC url with
  | some m => 'N' :: m.map upperA
  | none =>
    match ncFallback (splitOnChar '/' url) with
    | some u => u
    | none => "UNKNOWN".data

/-- The `generateFileName` function (`"%s-%s"`). -/
def generateFileName (novelCode episodeNumber : List Char) : List Char :=
  novelCode ++ "-".data ++ episodeNumber

/-- `filepath.Join` of two components, modeled as `/`-concatenation. -/
def pathJoin (a b : List Char) : List Char :=
  a ++ "/".data ++ b

/-- The file system visible to `os.Stat`, as the list of existing
paths. -/
abbrev FS := List (List Char)

/-- The `isFileAlreadySaved` function: `(htmlExists, txtExists)`, each
defaulting to `true` when the corresponding artifact is not requested. -/
def isFileAlreadySaved (fs : FS) (savePath fileName episodeNumber : List Char)
    (createHtml createTxt : Bool) : Bool × Bool :=
  let htmlExists :=
    if createHtml then
      fs.contains (pathJoin (pathJoin savePath "html".data)
        (episodeNumber ++ ".html".data))
    else true
  let txtExists :=
    if createTxt then fs.contains (pathJoin savePath (fileName ++ ".txt".data))
    else true
  (htmlExists, txtExists)

/-- The `shouldSkipEpisode` function. -/
def shouldSkipEpisode (fs : FS) (savePath fileName episodeNumber : List Char)
    (createHtml createTxt : Bool) : Bool :=
  let p := isFileAlreadySaved fs savePath fileName episodeNumber createHtml createTxt
  p.1 && p.2

/-- One chapter descriptor together with the outcome that
`ScrapeChapterWithHTML` would produce for its URL (the network is part of
the model input; only the plain-text content is kept, the structural HTML
variants being irrelevant to the claims). -/
structure Chapter where
  url : List Char
  title : List Char
  fetch : Except (List Char) (List Char)

/-- Observable actions of the download loop: the per-chapter progress
label (`i/total`), a skip, a chapter fetch, a failed fetch with the
running failure count, and a text-file write. -/
inductive DLEvent where
  | progress (i total : Nat)
  | skipped (i : Nat)
  | fetched (i : Nat)
  | fetchFailed (i fails : Nat)
  | saved (fileName : List Char)
  deriving DecidableEq

/-- Decimal numeral of a natural number. -/
def natStr (n : Nat) : List Char := (Nat.repr n).data

/-- The fatal message of the circuit breaker
(`Chapterの取得に%d回失敗したため、…`). -/
def abortMsg (n : Nat) (lastErr : List Char) : List Char :=
  "Chapterの取得に".data ++ natStr n ++
    "回失敗したため、ダウンロードを停止します。最後のエラー: ".data ++ lastErr

/-- The episode number used for chapter `i` (0-based): the URL-derived
number, replaced by the positional index `i+1` when it is empty or when
a non-first chapter repeats `"1"`. -/
def episodeOf (ch : Chapter) (i : Nat) : List Char :=
  let ep0 := extractEpisodeNumberFromURL ch.url
  if ep0 = [] ∨ (i ≠ 0 ∧ ep0 = ['1']) then natStr (i + 1) else ep0

/-- The per-chapter loop of `downloadRensai`: episode number from the
URL with positional fallback, skip check, fetch with the consecutive
failure counter (threshold 3, reset on success), per-chapter save when
`createTxt`, and accumulation of `(title, content)` for the combined
file (the `formatChapterContentForCombined` formatting of the
accumulated text is irrelevant to the claims and left as the raw pair).
Returns the fatal error (if any), the event trace, and the
accumulator. -/
def downloadLoop (fs : FS) (savePath : List Char)
    (createHtml createTxt : Bool) (novelCode : List Char) (total : Nat) :
    Nat → Nat → List Chapter → List (List Char × List Char) →
      Option (List Char) × List DLEvent × List (List Char × List Char)
  | _, _, [], acc => (none, [], acc)
  | i, fails, ch :: rest, acc =>
    let ep := episodeOf ch i
    let fn := generateFileName novelCode ep
    if shouldSkipEpisode fs savePath fn ep createHtml createTxt then
      let r := downloadLoop fs savePath createHtml createTxt novelCode total
        (i + 1) fails rest acc
      (r.1, .progress i total :: .skipped i :: r.2.1, r.2.2)
    else
      match ch.fetch with
      | .error e =>
        if 3 ≤ fails + 1 then
          (some (abortMsg 3 e),
            [.progress i total, .fetched i, .fetchFailed i (fails + 1)], acc)
        else
          let r := downloadLoop fs savePath createHtml createTxt novelCode total
            (i + 1) (fails + 1) rest acc
          (r.1,
            .progress i total :: .fetched i :: .fetchFailed i (fails + 1) :: r.2.1,
            r.2.2)
      | .ok content =>
        let r := downloadLoop fs savePath createHtml createTxt novelCode total
          (i + 1) 0 rest (acc ++ [(ch.title, content)])
        (r.1,
          .progress i total :: .fetched i ::
            ((if createTxt then [DLEvent.saved fn] else []) ++ r.2.1),
          r.2.2)

/-- The `downloadRensai` function: empty chapter lists are rejected, the
novel code comes from the first chapter URL, then the loop runs with the
failure counter at zero; on normal completion the combined file is
written when requested and at least one chapter was fetched. -/
def downloadRensai (fs : FS) (savePath : List Char)
    (createHtml createTxt createCombined : Bool) (chapters : List Chapter) :
    Option (List Char) × List DLEvent :=
  match chapters with
  | [] => (some "エピソードが見つかりませんでした".data, [])
  | c0 :: _ =>
    let novelCode := extractNovelCodeFromURL c0.url
    let r := downloadLoop fs savePath createHtml createTxt novelCode
      chapters.length 0 0 chapters []
    match r.1 with
    | some e => (some e, r.2.1)
    | none =>
      (none,
        r.2.1 ++
          (if createCombined ∧ r.2.2 ≠ [] ∧ createTxt
           then [DLEvent.saved "all".data] else []))

/-- The sequence of fetch outcomes the loop would consult: one entry per
chapter that is not skipped. -/
def fetchSeq (fs : FS) (savePath : List Char) (createHtml createTxt : Bool)
    (novelCode : List Char) : Nat → List Chapter →
      List (Except (List Char) (List Char))
  | _, [] => []
  | i, ch :: rest =>
    let ep := episodeOf ch i
    let fn := generateFileName novelCode ep
    if shouldSkipEpisode fs savePath fn ep createHtml createTxt then
      fetchSeq fs savePath createHtml createTxt novelCode (i + 1) rest
    else
      ch.fetch :: fetchSeq fs savePath createHtml createTxt novelCode (i + 1) rest

/-- Failure test on a fetch outcome. -/
def isErrE (x : Except (List Char) (List Char)) : Bool :=
  match x with
  | .error _ => true
  | .ok _ => false

/-- The first `n` entries exist and are all failures. -/
def leadErrs : Nat → List (Except (List Char) (List Char)) → Bool
  | 0, _ => true
  | _ + 1, [] => false
  | n + 1, x :: r => isErrE x && leadErrs n r

/-- Some window of three adjacent entries consists of failures. -/
def hasTrio : List (Except (List Char) (List Char)) → Bool
  | [] => false
  | x :: r => leadErrs 3 (x :: r) || hasTrio r

/-! Generic lemmas about the matchers. -/

theorem ciMatch_symbol {p c : Char} (hp : decide ('a' ≤ p) = false)
    (h : ¬ c = p) : ciMatch p c = false := by
  simp [ciMatch, h, hp]

theorem startsWithCI_ne_head (p : Char) (ps : List Char) {c : Char}
    {cs : List Char} (hp : decide ('a' ≤ p) = false) (h : ¬ c = p) :
    startsWithCI (p :: ps) (c :: cs) = false := by
  simp [startsWithCI, ciMatch_symbol hp h]

theorem hasPrefixEx_ne_head (p : Char) (ps : List Char) {c : Char}
    {cs : List Char} (h : ¬ c = p) :
    hasPrefixEx (p :: ps) (c :: cs) = false := by
  simp [hasPrefixEx, h]

/-- A pass whose match attempt is refused by the head rune alone is the
identity on strings all of whose runes refuse it. -/
theorem runPass_id_of_head (step : List Char → Option (List Char × List Char))
    (Q : Char → Prop) (hnil : step [] = none)
    (hd : ∀ c r, Q c → step (c :: r) = none) :
    ∀ l : List Char, (∀ c ∈ l, Q c) → runPass step l = l := by
  intro l h
  apply genScan_id
  intro n _
  cases hdrop : l.drop n with
  | nil => exact hnil
  | cons c r =>
    have hc : c ∈ l := by
      have hm : c ∈ l.drop n := by rw [hdrop]; exact List.mem_cons_self _ _
      exact List.mem_of_mem_drop hm
    exact hd c r (h c hc)

/-! Head-refusal lemmas for the individual passes. -/

theorem brStep_nil : brStep [] = none := rfl

theorem brStep_head {c : Char} (r : List Char) (h : c ≠ '<') :
    brStep (c :: r) = none := by
  have hp : hasPrefixEx "<br".data (c :: r) = false := by
    rw [show "<br".data = '<' :: 'b' :: 'r' :: [] from rfl]
    exact hasPrefixEx_ne_head '<' _ h
  simp [brStep, hp]

theorem pStep_head {c : Char} (r : List Char) (h1 : c ≠ '<') (h2 : c ≠ '\n') :
    pStep (c :: r) = none := by
  have hsw : startsWithCI "</p>".data (c :: r) = false := by
    rw [show "</p>".data = '<' :: '/' :: 'p' :: '>' :: [] from rfl]
    exact startsWithCI_ne_head '<' _ rfl h1
  simp [pStep, hsw, h2]

theorem tagStep_head {c : Char} (r : List Char) (h : c ≠ '<') :
    tagStep (c :: r) = none := by
  cases r with
  | nil => rfl
  | cons c2 rest => simp [tagStep, h]

theorem rubyStep_head {c : Char} (r : List Char) (h : c ≠ '<') :
    rubyStep (c :: r) = none := by
  have hsw : startsWithCI "<ruby>".data (c :: r) = false := by
    rw [show "<ruby>".data = '<' :: 'r' :: 'u' :: 'b' :: 'y' :: '>' :: [] from rfl]
    exact startsWithCI_ne_head '<' _ rfl h
  simp [rubyStep, hsw]

theorem tokenStep_head (p : Char) (ps rep : List Char) {c : Char}
    (r : List Char) (hp : decide ('a' ≤ p) = false) (h : c ≠ p) :
    tokenStep (p :: ps) rep (c :: r) = none := by
  simp [tokenStep, startsWithCI_ne_head p ps hp h]

theorem emStep_head {c : Char} (r : List Char) (h : c ≠ '<') :
    emStep (c :: r) = none := by
  have hp : hasPrefixEx "<em class=\"emphasisDots\">".data (c :: r) = false := by
    rw [show "<em class=\"emphasisDots\">".data =
      '<' :: "em class=\"emphasisDots\">".data from rfl]
    exact hasPrefixEx_ne_head '<' _ h
  simp [emStep, hp]

theorem imgStep_head {c : Char} (r : List Char) (h : c ≠ '<') :
    imgStep (c :: r) = none := by
  have hp : hasPrefixEx "<img".data (c :: r) = false := by
    rw [show "<img".data = '<' :: 'i' :: 'm' :: 'g' :: [] from rfl]
    exact hasPrefixEx_ne_head '<' _ h
  unfold imgStep
  rw [hp]
  rfl

theorem replStep_head (p : Char) (ps rep : List Char) {c : Char}
    (r : List Char) (h : c ≠ p) :
    replStep (p :: ps) rep (c :: r) = none := by
  simp [replStep, hasPrefixEx_ne_head p ps h]

theorem numStep_head {c : Char} (r : List Char) (h : c ≠ '&') :
    numStep (c :: r) = none := by
  cases r with
  | nil => rfl
  | cons b rest => simp [numStep, h]

theorem hexStep_head {c : Char} (r : List Char) (h : c ≠ '&') :
    hexStep (c :: r) = none := by
  cases r with
  | nil => rfl
  | cons b rest =>
    cases rest with
    | nil => rfl
    | cons x rest2 => simp [hexStep, h]

/-! Identity of each pass on text that cannot trigger it. -/

/-- Runes on which the whole conversion pipeline is inert. -/
def inertChar (c : Char) : Prop :=
  c ≠ '<' ∧ c ≠ '&' ∧ c ≠ '《' ∧ c ≠ '》' ∧ c ≠ '\r' ∧ c ≠ '\n'

instance (c : Char) : Decidable (inertChar c) := by
  unfold inertChar; infer_instance

theorem removeCRLF_id (l : List Char) (h : ∀ c ∈ l, inertChar c) :
    removeCRLF l = l := by
  apply List.filter_eq_self.mpr
  intro c hc
  obtain ⟨_, _, _, _, h5, h6⟩ := h c hc
  simp [h5, h6]

theorem swapAngle_id (l : List Char) (h : ∀ c ∈ l, inertChar c) :
    swapAngle l = l := by
  induction l with
  | nil => rfl
  | cons c r ih =>
    obtain ⟨-, -, h3, h4, -, -⟩ := h c (List.mem_cons_self _ _)
    show (if c = '《' then '≪' else if c = '》' then '≫' else c) :: swapAngle r
      = c :: r
    rw [if_neg h3, if_neg h4, ih (fun x hx => h x (List.mem_cons_of_mem _ hx))]

theorem brToAozora_id (l : List Char) (h : ∀ c ∈ l, inertChar c) :
    brToAozora l = l := by
  unfold brToAozora
  rw [removeCRLF_id l h]
  exact runPass_id_of_head brStep inertChar brStep_nil
    (fun c r hq => brStep_head r hq.1) l h

theorem pToAozora_id (l : List Char) (h : ∀ c ∈ l, inertChar c) :
    pToAozora l = l :=
  runPass_id_of_head pStep inertChar rfl
    (fun c r hq => pStep_head r hq.1 hq.2.2.2.2.2) l h

theorem deleteTag_id (l : List Char) (h : ∀ c ∈ l, inertChar c) :
    deleteTag l = l :=
  runPass_id_of_head tagStep inertChar rfl
    (fun c r hq => tagStep_head r hq.1) l h

theorem rubyToAozora_id (l : List Char) (h : ∀ c ∈ l, inertChar c) :
    rubyToAozora l = l := by
  unfold rubyToAozora
  rw [swapAngle_id l h]
  exact runPass_id_of_head rubyStep inertChar rfl
    (fun c r hq => rubyStep_head r hq.1) l h

theorem replaceTokenCI_id (p : Char) (ps rep : List Char)
    (hp : decide ('a' ≤ p) = false) (hq : ∀ c : Char, inertChar c → c ≠ p)
    (l : List Char) (h : ∀ c ∈ l, inertChar c) :
    replaceTokenCI (p :: ps) rep l = l :=
  runPass_id_of_head (tokenStep (p :: ps) rep) inertChar rfl
    (fun c r hc => tokenStep_head p ps rep r hp (hq c hc)) l h

theorem bToAozora_id (l : List Char) (h : ∀ c ∈ l, inertChar c) :
    bToAozora l = l := by
  unfold bToAozora
  rw [show "<b>".data = '<' :: 'b' :: '>' :: [] from rfl,
    show "</b>".data = '<' :: '/' :: 'b' :: '>' :: [] from rfl,
    replaceTokenCI_id '<' _ _ rfl (fun c hc => hc.1) l h,
    replaceTokenCI_id '<' _ _ rfl (fun c hc => hc.1) l h]

theorem iToAozora_id (l : List Char) (h : ∀ c ∈ l, inertChar c) :
    iToAozora l = l := by
  unfold iToAozora
  rw [show "<i>".data = '<' :: 'i' :: '>' :: [] from rfl,
    show "</i>".data = '<' :: '/' :: 'i' :: '>' :: [] from rfl,
    replaceTokenCI_id '<' _ _ rfl (fun c hc => hc.1) l h,
    replaceTokenCI_id '<' _ _ rfl (fun c hc => hc.1) l h]

theorem sToAozora_id (l : List Char) (h : ∀ c ∈ l, inertChar c) :
    sToAozora l = l := by
  unfold sToAozora
  rw [show "<s>".data = '<' :: 's' :: '>' :: [] from rfl,
    show "</s>".data = '<' :: '/' :: 's' :: '>' :: [] from rfl,
    replaceTokenCI_id '<' _ _ rfl (fun c hc => hc.1) l h,
    replaceTokenCI_id '<' _ _ rfl (fun c hc => hc.1) l h]

theorem emToSesame_id (l : List Char) (h : ∀ c ∈ l, inertChar c) :
    emToSesame l = l :=
  runPass_id_of_head emStep inertChar rfl
    (fun c r hq => emStep_head r hq.1) l h

theorem imgToAozora_id (l : List Char) (h : ∀ c ∈ l, inertChar c) :
    imgToAozora l = l :=
  runPass_id_of_head imgStep inertChar rfl
    (fun c r hq => imgStep_head r hq.1) l h

theorem replaceAllEx_id (p : Char) (ps rep : List Char)
    (hq : ∀ c : Char, inertChar c → c ≠ p)
    (l : List Char) (h : ∀ c ∈ l, inertChar c) :
    replaceAllEx (p :: ps) rep l = l :=
  runPass_id_of_head (replStep (p :: ps) rep) inertChar rfl
    (fun c r hc => replStep_head p ps rep r (hq c hc)) l h

theorem numPass_id (l : List Char) (h : ∀ c ∈ l, inertChar c) :
    runPass numStep l = l :=
  runPass_id_of_head numStep inertChar rfl
    (fun c r hq => numStep_head r hq.2.1) l h

theorem hexPass_id (l : List Char) (h : ∀ c ∈ l, inertChar c) :
    runPass hexStep l = l :=
  runPass_id_of_head hexStep inertChar rfl
    (fun c r hq => hexStep_head r hq.2.1) l h

/-- Every named-entity key starts with an ampersand. -/
def ampHeaded (ord : List (List Char × List Char)) : Prop :=
  ∀ p ∈ ord, p.1.head? = some '&'

instance (ord : List (List Char × List Char)) : Decidable (ampHeaded ord) := by
  unfold ampHeaded; infer_instance

theorem entityPairs_ampHeaded : ampHeaded entityPairs := by decide

theorem ampHeaded_cons_destruct {q : List Char × List Char}
    {rest : List (List Char × List Char)} (hord : ampHeaded (q :: rest)) :
    ∃ t, q.1 = '&' :: t := by
  have hps := hord q (List.mem_cons_self _ _)
  cases hq1 : q.1 with
  | nil => rw [hq1] at hps; exact absurd hps (by simp)
  | cons a t =>
    rw [hq1] at hps
    have ha : a = '&' := by simpa using hps
    exact ⟨t, by rw [ha]⟩

theorem restoreHTMLEntityOrd_id (ord : List (List Char × List Char))
    (hord : ampHeaded ord) (l : List Char) (h : ∀ c ∈ l, inertChar c) :
    restoreHTMLEntityOrd ord l = l := by
  unfold restoreHTMLEntityOrd
  have hfold : ord.foldl (fun acc p => replaceAllEx p.1 p.2 acc) l = l := by
    induction ord with
    | nil => rfl
    | cons q rest ih =>
      obtain ⟨ps, hps⟩ := ampHeaded_cons_destruct hord
      simp only [List.foldl_cons, hps]
      rw [replaceAllEx_id '&' ps q.2 (fun c hc => hc.2.1) l h]
      exact ih (fun p hp => hord p (List.mem_cons_of_mem _ hp))
  rw [hfold, numPass_id l h, hexPass_id l h]

/-- C1 (amended core): `ToAozora` is the identity on strings whose runes
are all inert, for every flag combination and entity order. -/
theorem ToAozoraOrd_id (strip preHTML : Bool)
    (ord : List (List Char × List Char)) (hord : ampHeaded ord)
    (l : List Char) (h : ∀ c ∈ l, inertChar c) :
    ToAozoraOrd strip preHTML ord l = l := by
  unfold ToAozoraOrd
  cases preHTML <;> cases strip <;>
    simp only [Bool.false_eq_true, if_false, if_true, brToAozora_id l h,
      pToAozora_id l h, rubyToAozora_id l h, bToAozora_id l h,
      iToAozora_id l h, sToAozora_id l h, imgToAozora_id l h,
      emToSesame_id l h, deleteTag_id l h, restoreHTMLEntityOrd_id ord hord l h]

/-! Character preservation: no pass introduces an ampersand. -/

theorem genScan_chars (step) (Q : Char → Prop)
    (hstep : ∀ l, (∀ c ∈ l, Q c) → ∀ out next, step l = some (out, next) →
      (∀ c ∈ out, Q c) ∧ (∀ c ∈ next, Q c)) :
    ∀ f l, (∀ c ∈ l, Q c) → ∀ c ∈ genScan step f l, Q c := by
  intro f
  induction f with
  | zero => intro l h c hc; exact h c hc
  | succ g ih =>
    intro l h c hc
    cases l with
    | nil => simp [genScan_nil] at hc
    | cons a rest =>
      rw [show genScan step (g + 1) (a :: rest)
          = match step (a :: rest) with
            | some (out, next) => out ++ genScan step g next
            | none => a :: genScan step g rest from rfl] at hc
      cases hs : step (a :: rest) with
      | none =>
        rw [hs] at hc
        rcases List.mem_cons.mp hc with h1 | h2
        · exact h1 ▸ h a (List.mem_cons_self _ _)
        · exact ih rest (fun x hx => h x (List.mem_cons_of_mem _ hx)) c h2
      | some p =>
        obtain ⟨out, next⟩ := p
        rw [hs] at hc
        obtain ⟨hout, hnext⟩ := hstep (a :: rest) h out next hs
        rcases List.mem_append.mp hc with h1 | h2
        · exact hout c h1
        · exact ih next hnext c h2

theorem runPass_chars (step) (Q : Char → Prop)
    (hstep : ∀ l, (∀ c ∈ l, Q c) → ∀ out next, step l = some (out, next) →
      (∀ c ∈ out, Q c) ∧ (∀ c ∈ next, Q c))
    (l : List Char) (h : ∀ c ∈ l, Q c) : ∀ c ∈ runPass step l, Q c :=
  genScan_chars step Q hstep l.length l h

/-- Text without ampersands: on such text the entity-restoration stage is
inert regardless of the map iteration order. -/
def ampFree (l : List Char) : Prop := ∀ c ∈ l, c ≠ '&'

instance (l : List Char) : Decidable (ampFree l) := by
  unfold ampFree; infer_instance

theorem splitFirstCI_subset (pat : List Char) :
    ∀ l a b, splitFirstCI pat l = some (a, b) →
      (∀ c ∈ a, c ∈ l) ∧ (∀ c ∈ b, c ∈ l) := by
  intro l
  induction l with
  | nil => intro a b h; simp [splitFirstCI] at h
  | cons x rest ih =>
    intro a b h
    unfold splitFirstCI at h
    by_cases hs : startsWithCI pat (x :: rest) = true
    · rw [if_pos hs] at h
      simp only [Option.some.injEq, Prod.mk.injEq] at h
      obtain ⟨ha, hb⟩ := h
      constructor
      · intro c hc; rw [← ha] at hc; simp at hc
      · intro c hc; rw [← hb] at hc
        exact List.drop_subset _ _ hc
    · rw [if_neg hs] at h
      cases hm : splitFirstCI pat rest with
      | none => rw [hm] at h; simp at h
      | some p =>
        obtain ⟨u, v⟩ := p
        rw [hm, show (some (u, v)).map (fun p => (x :: p.1, p.2))
          = some (x :: u, v) from rfl] at h
        simp only [Option.some.injEq, Prod.mk.injEq] at h
        obtain ⟨ha, hb⟩ := h
        obtain ⟨hu, hv⟩ := ih u v hm
        constructor
        · intro c hc
          rw [← ha] at hc
          rcases List.mem_cons.mp hc with h1 | h2
          · exact h1 ▸ List.mem_cons_self _ _
          · exact List.mem_cons_of_mem _ (hu c h2)
        · intro c hc
          rw [← hb] at hc
          exact List.mem_cons_of_mem _ (hv c hc)

theorem bsplit_subset (pat l : List Char) : ∀ c ∈ bsplit pat l, c ∈ l := by
  unfold bsplit
  cases hm : splitFirstCI pat l with
  | none => intro c hc; exact hc
  | some p => exact (splitFirstCI_subset pat l p.1 p.2 (by rw [hm])).1

/-- `deleteTag` only ever removes runes. -/
theorem deleteTag_chars (Q : Char → Prop) (l : List Char)
    (h : ∀ c ∈ l, Q c) : ∀ c ∈ deleteTag l, Q c := by
  apply runPass_chars tagStep Q (fun t ht out next hs => ?_) l h
  match t, hs with
  | a :: b :: r, hs =>
    rw [show tagStep (a :: b :: r)
      = (if a = '<' then
          if b = '\n' then none
          else
            match seekChar '>' r with
            | some j => some (([] : List Char), r.drop (j + 1))
            | none => none
        else none) from rfl] at hs
    by_cases ha : a = '<'
    · rw [if_pos ha] at hs
      by_cases hb : b = '\n'
      · rw [if_pos hb] at hs; exact absurd hs (by simp)
      · rw [if_neg hb] at hs
        cases hj : seekChar '>' r with
        | none => rw [hj] at hs; exact absurd hs (by simp)
        | some j =>
          rw [hj] at hs
          simp only [Option.some.injEq, Prod.mk.injEq] at hs
          obtain ⟨ho, hn⟩ := hs
          refine ⟨by rw [← ho]; simp, ?_⟩
          intro c hc
          rw [← hn] at hc
          exact ht c (List.mem_cons_of_mem _ (List.mem_cons_of_mem _
            (List.drop_subset _ _ hc)))
    · rw [if_neg ha] at hs; exact absurd hs (by simp)

theorem swapAngle_ampFree (l : List Char) (h : ampFree l) :
    ampFree (swapAngle l) := by
  intro c hc
  obtain ⟨x, hx, hfx⟩ := List.mem_map.mp hc
  by_cases h1 : x = '《'
  · simp [h1] at hfx; rw [← hfx]; decide
  · by_cases h2 : x = '》'
    · simp [h1, h2] at hfx; rw [← hfx]; decide
    · simp [h1, h2] at hfx; rw [← hfx]; exact h x hx

theorem brToAozora_ampFree (l : List Char) (h : ampFree l) :
    ampFree (brToAozora l) := by
  unfold brToAozora
  have hrem : ampFree (removeCRLF l) := fun c hc =>
    h c (List.mem_of_mem_filter hc)
  intro c0 hc0
  refine runPass_chars brStep (fun c => c ≠ '&') ?_ _ hrem c0 hc0
  intro t ht out next hs
  unfold brStep at hs
  by_cases hp : hasPrefixEx "<br".data t = true
  · rw [if_pos hp] at hs
    cases hj : seekChar '>' (t.drop 3) with
    | none => rw [hj] at hs; exact absurd hs (by simp)
    | some j =>
      rw [hj] at hs
      simp only [Option.some.injEq, Prod.mk.injEq] at hs
      obtain ⟨ho, hn⟩ := hs
      refine ⟨by rw [← ho]; decide, ?_⟩
      intro c hc
      rw [← hn] at hc
      exact ht c (List.drop_subset _ _ (List.drop_subset _ _ hc))
  · rw [if_neg hp] at hs; exact absurd hs (by simp)

theorem pToAozora_ampFree (l : List Char) (h : ampFree l) :
    ampFree (pToAozora l) := by
  intro c0 hc0
  refine runPass_chars pStep (fun c => c ≠ '&') ?_ l h c0 hc0
  intro t ht out next hs
  match t, hs with
  | c :: rest, hs =>
    rw [show pStep (c :: rest)
      = (if c = '\n' then
          if startsWithCI "</p>".data rest then some (['\n'], rest.drop 4)
          else none
        else
          if startsWithCI "</p>".data (c :: rest) then
            some (['\n'], rest.drop 3)
          else none) from rfl] at hs
    by_cases hc : c = '\n'
    · rw [if_pos hc] at hs
      by_cases hsw : startsWithCI "</p>".data rest = true
      · rw [if_pos hsw] at hs
        simp only [Option.some.injEq, Prod.mk.injEq] at hs
        obtain ⟨ho, hn⟩ := hs
        refine ⟨by rw [← ho]; decide, ?_⟩
        intro x hx
        rw [← hn] at hx
        exact ht x (List.mem_cons_of_mem _ (List.drop_subset _ _ hx))
      · rw [if_neg hsw] at hs; exact absurd hs (by simp)
    · rw [if_neg hc] at hs
      by_cases hsw : startsWithCI "</p>".data (c :: rest) = true
      · rw [if_pos hsw] at hs
        simp only [Option.some.injEq, Prod.mk.injEq] at hs
        obtain ⟨ho, hn⟩ := hs
        refine ⟨by rw [← ho]; decide, ?_⟩
        intro x hx
        rw [← hn] at hx
        exact ht x (List.mem_cons_of_mem _ (List.drop_subset _ _ hx))
      · rw [if_neg hsw] at hs; exact absurd hs (by simp)

theorem rubyToAozora_ampFree (l : List Char) (h : ampFree l) :
    ampFree (rubyToAozora l) := by
  unfold rubyToAozora
  intro c0 hc0
  refine runPass_chars rubyStep (fun c => c ≠ '&') ?_ _
    (swapAngle_ampFree l h) c0 hc0
  intro t ht out next hs
  unfold rubyStep at hs
  by_cases hsw : startsWithCI "<ruby>".data t = true
  · rw [if_pos hsw] at hs
    cases hk : findRubyClose (t.drop 6) with
    | none => rw [hk] at hs; exact absurd hs (by simp)
    | some k =>
      rw [hk] at hs
      simp only [Option.some.injEq, Prod.mk.injEq] at hs
      obtain ⟨ho, hn⟩ := hs
      have hcontent : ∀ c ∈ (t.drop 6).take k, c ≠ '&' := fun c hc =>
        ht c (List.drop_subset _ _ (List.take_subset _ _ hc))
      constructor
      · intro c hc
        rw [← ho] at hc
        unfold rubyEmit at hc
        cases hsp : splitFirstCI "<rt>".data ((t.drop 6).take k) with
        | none =>
          rw [hsp] at hc
          exact deleteTag_chars _ _ hcontent c hc
        | some p =>
          rw [hsp] at hc
          obtain ⟨h1, h2⟩ :=
            splitFirstCI_subset "<rt>".data ((t.drop 6).take k) p.1 p.2 hsp
          simp only [List.mem_append, List.mem_cons, List.mem_singleton,
            List.not_mem_nil, or_false, false_or] at hc
          have hfin : c = '｜' ∨ c ∈ deleteTag (bsplit "<rp>".data p.1) ∨
              c = '《' ∨ c ∈ deleteTag (bsplit "<rp>".data p.2) ∨ c = '》' := by
            tauto
          rcases hfin with hc | hc | hc | hc | hc
          · subst hc; decide
          · exact deleteTag_chars _ _
              (fun x hx => hcontent x (h1 x (bsplit_subset _ _ x hx))) c hc
          · subst hc; decide
          · exact deleteTag_chars _ _
              (fun x hx => hcontent x (h2 x (bsplit_subset _ _ x hx))) c hc
          · subst hc; decide
      · intro c hc
        rw [← hn] at hc
        exact ht c (List.drop_subset _ _ (List.drop_subset _ _ hc))
  · rw [if_neg hsw] at hs; exact absurd hs (by simp)

theorem replaceTokenCI_ampFree (pat rep l : List Char)
    (hrep : ∀ c ∈ rep, c ≠ '&') (h : ampFree l) :
    ampFree (replaceTokenCI pat rep l) := by
  intro c0 hc0
  refine runPass_chars (tokenStep pat rep) (fun c => c ≠ '&') ?_ l h c0 hc0
  intro t ht out next hs
  unfold tokenStep at hs
  by_cases hsw : startsWithCI pat t = true
  · rw [if_pos hsw] at hs
    simp only [Option.some.injEq, Prod.mk.injEq] at hs
    obtain ⟨ho, hn⟩ := hs
    exact ⟨ho ▸ hrep, fun c hc => ht c (List.drop_subset _ _ (hn ▸ hc))⟩
  · rw [if_neg hsw] at hs; exact absurd hs (by simp)

theorem bToAozora_ampFree (l : List Char) (h : ampFree l) :
    ampFree (bToAozora l) :=
  replaceTokenCI_ampFree _ _ _ (by decide)
    (replaceTokenCI_ampFree _ _ _ (by decide) h)

theorem iToAozora_ampFree (l : List Char) (h : ampFree l) :
    ampFree (iToAozora l) :=
  replaceTokenCI_ampFree _ _ _ (by decide)
    (replaceTokenCI_ampFree _ _ _ (by decide) h)

theorem sToAozora_ampFree (l : List Char) (h : ampFree l) :
    ampFree (sToAozora l) :=
  replaceTokenCI_ampFree _ _ _ (by decide)
    (replaceTokenCI_ampFree _ _ _ (by decide) h)

theorem emToSesame_ampFree (l : List Char) (h : ampFree l) :
    ampFree (emToSesame l) := by
  intro c0 hc0
  refine runPass_chars emStep (fun c => c ≠ '&') ?_ l h c0 hc0
  intro t ht out next hs
  unfold emStep at hs
  by_cases hp : hasPrefixEx "<em class=\"emphasisDots\">".data t = true
  · rw [if_pos hp] at hs
    cases hk : findEmClose (t.drop 25) with
    | none => rw [hk] at hs; exact absurd hs (by simp)
    | some k =>
      rw [hk] at hs
      simp only [Option.some.injEq, Prod.mk.injEq] at hs
      obtain ⟨ho, hn⟩ := hs
      constructor
      · intro c hc
        rw [← ho] at hc
        simp only [List.mem_append] at hc
        have hfin : c ∈ "［＃傍点］".data ∨ c ∈ (t.drop 25).take k ∨
            c ∈ "［＃傍点終わり］".data := by tauto
        rcases hfin with hc | hc | hc
        · exact (by decide : ∀ x ∈ "［＃傍点］".data, x ≠ '&') c hc
        · exact ht c (List.drop_subset _ _ (List.take_subset _ _ hc))
        · exact (by decide : ∀ x ∈ "［＃傍点終わり］".data, x ≠ '&') c hc
      · intro c hc
        rw [← hn] at hc
        exact ht c (List.drop_subset _ _ (List.drop_subset _ _ hc))
  · rw [if_neg hp] at hs; exact absurd hs (by simp)

theorem imgToAozora_ampFree (l : List Char) (h : ampFree l) :
    ampFree (imgToAozora l) := by
  intro c0 hc0
  refine runPass_chars imgStep (fun c => c ≠ '&') ?_ l h c0 hc0
  intro t ht out next hs
  unfold imgStep at hs
  split at hs
  · split at hs
    · exact absurd hs (by simp)
    · rename_i j0 hj
      split at hs
      · split at hs
        · exact absurd hs (by simp)
        · rename_i m0 hm
          split at hs
          · exact absurd hs (by simp)
          · rename_i g hg
            simp only [Option.some.injEq, Prod.mk.injEq] at hs
            obtain ⟨ho, hn⟩ := hs
            constructor
            · intro x hx
              rw [← ho] at hx
              simp only [List.mem_append] at hx
              have hfin : x ∈ "［＃挿絵（".data ∨
                  x ∈ ((t.drop 4).drop (j0 + 6)).take (m0 + 1) ∨
                  x ∈ "）入る］".data := by tauto
              rcases hfin with hx | hx | hx
              · exact (by decide : ∀ y ∈ "［＃挿絵（".data, y ≠ '&') x hx
              · exact ht x (List.drop_subset _ _ (List.drop_subset _ _
                  (List.take_subset _ _ hx)))
              · exact (by decide : ∀ y ∈ "）入る］".data, y ≠ '&') x hx
            · intro x hx
              rw [← hn] at hx
              exact ht x (List.drop_subset _ _ (List.drop_subset _ _
                (List.drop_subset _ _ (List.drop_subset _ _ hx))))
      · exact absurd hs (by simp)
  · exact absurd hs (by simp)

/-- Entity restoration is inert on ampersand-free text, for every
iteration order built from ampersand-headed keys. -/
theorem restoreHTMLEntityOrd_amp_id (ord : List (List Char × List Char))
    (hord : ampHeaded ord) (l : List Char) (h : ampFree l) :
    restoreHTMLEntityOrd ord l = l := by
  unfold restoreHTMLEntityOrd
  have hfold : ord.foldl (fun acc p => replaceAllEx p.1 p.2 acc) l = l := by
    induction ord with
    | nil => rfl
    | cons q rest ih =>
      obtain ⟨ps, hps⟩ := ampHeaded_cons_destruct hord
      simp only [List.foldl_cons, hps]
      have hid : replaceAllEx ('&' :: ps) q.2 l = l :=
        runPass_id_of_head (replStep ('&' :: ps) q.2) (fun c => c ≠ '&') rfl
          (fun c r hc => replStep_head '&' ps q.2 r hc) l h
      rw [hid]
      exact ih (fun p hp => hord p (List.mem_cons_of_mem _ hp))
  rw [hfold,
    runPass_id_of_head numStep (fun c => c ≠ '&') rfl
      (fun c r hq => numStep_head r hq) l h,
    runPass_id_of_head hexStep (fun c => c ≠ '&') rfl
      (fun c r hq => hexStep_head r hq) l h]

/-- C2 (amended core): on ampersand-free input every iteration order of
the named-entity map yields the same conversion result. -/
theorem ToAozoraOrd_entity_indep (strip preHTML : Bool)
    (ord : List (List Char × List Char)) (hord : ampHeaded ord)
    (l : List Char) (h : ampFree l) :
    ToAozoraOrd strip preHTML ord l = ToAozoraOrd strip preHTML entityPairs l := by
  unfold ToAozoraOrd
  have h1 : ampFree (if preHTML then l else brToAozora l) := by
    cases preHTML
    · simpa using brToAozora_ampFree l h
    · simpa using h
  have h2 := pToAozora_ampFree _ h1
  have h3 := rubyToAozora_ampFree _ h2
  have h4 : ampFree (if strip then rubyToAozora (pToAozora
      (if preHTML then l else brToAozora l)) else sToAozora (iToAozora
      (bToAozora (rubyToAozora (pToAozora
        (if preHTML then l else brToAozora l)))))) := by
    cases strip
    · simpa using sToAozora_ampFree _ (iToAozora_ampFree _ (bToAozora_ampFree _ h3))
    · simpa using h3
  have h5 := imgToAozora_ampFree _ h4
  have h6 := emToSesame_ampFree _ h5
  have h7 := deleteTag_chars (fun c => c ≠ '&') _ h6
  rw [restoreHTMLEntityOrd_amp_id ord hord _ h7,
    restoreHTMLEntityOrd_amp_id entityPairs entityPairs_ampHeaded _ h7]

/-! Machinery for the residual tag-stripping claim. -/

theorem seekChar_append (target : Char) :
    ∀ (A B : List Char), (∀ c ∈ A, c ≠ target ∧ c ≠ '\n') →
      seekChar target (A ++ target :: B) = some A.length := by
  intro A
  induction A with
  | nil =>
    intro B _
    simp [seekChar]
  | cons a A2 ih =>
    intro B h
    obtain ⟨h1, h2⟩ := h a (List.mem_cons_self _ _)
    show seekChar target (a :: (A2 ++ target :: B)) = some (A2.length + 1)
    rw [show seekChar target (a :: (A2 ++ target :: B))
        = if a = target then some 0
          else if a = '\n' then none
          else (seekChar target (A2 ++ target :: B)).map (· + 1) from rfl,
      if_neg h1, if_neg h2,
      ih B (fun c hc => h c (List.mem_cons_of_mem _ hc))]
    rfl

theorem tagStep_shrink :
    ∀ l out next, tagStep l = some (out, next) → next.length < l.length := by
  intro l out next hs
  match l, hs with
  | a :: b :: r, hs =>
    rw [show tagStep (a :: b :: r)
      = (if a = '<' then
          if b = '\n' then none
          else
            match seekChar '>' r with
            | some j => some (([] : List Char), r.drop (j + 1))
            | none => none
        else none) from rfl] at hs
    by_cases ha : a = '<'
    · rw [if_pos ha] at hs
      by_cases hb : b = '\n'
      · rw [if_pos hb] at hs; exact absurd hs (by simp)
      · rw [if_neg hb] at hs
        cases hj : seekChar '>' r with
        | none => rw [hj] at hs; exact absurd hs (by simp)
        | some j =>
          rw [hj] at hs
          simp only [Option.some.injEq, Prod.mk.injEq] at hs
          obtain ⟨-, hn⟩ := hs
          rw [← hn]
          simp only [List.length_drop, List.length_cons]
          omega
    · rw [if_neg ha] at hs; exact absurd hs (by simp)

/-- The effect of `deleteTag` on one well-delimited span: a prefix free
of `<`, then `<`, a non-empty run of content runes containing neither a
newline nor `>`, then the closing `>`: the span is removed and the scan
continues after it. -/
theorem deleteTag_span (pre content post : List Char)
    (hpre : ∀ c ∈ pre, c ≠ '<')
    (hnn : content ≠ [])
    (hcontent : ∀ c ∈ content, c ≠ '>' ∧ c ≠ '\n') :
    deleteTag (pre ++ '<' :: content ++ '>' :: post) = pre ++ deleteTag post := by
  obtain ⟨c2, content2, hcc⟩ : ∃ c2 content2, content = c2 :: content2 := by
    cases content with
    | nil => exact absurd rfl hnn
    | cons x y => exact ⟨x, y, rfl⟩
  subst hcc
  obtain ⟨hgt, hnl⟩ := hcontent c2 (List.mem_cons_self _ _)
  have hseek : seekChar '>' (content2 ++ '>' :: post) = some content2.length :=
    seekChar_append '>' content2 post
      (fun c hc => hcontent c (List.mem_cons_of_mem _ hc))
  have hdropc : (content2 ++ '>' :: post).drop (content2.length + 1) = post := by
    rw [show content2 ++ '>' :: post = (content2 ++ ['>']) ++ post from by simp,
      show content2.length + 1 = (content2 ++ ['>']).length from by simp]
    exact List.drop_left _ _
  have hstep : tagStep ('<' :: c2 :: (content2 ++ '>' :: post))
      = some ([], post) := by
    rw [show tagStep ('<' :: c2 :: (content2 ++ '>' :: post))
      = (if c2 = '\n' then none
        else
          match seekChar '>' (content2 ++ '>' :: post) with
          | some j => some (([] : List Char),
              (content2 ++ '>' :: post).drop (j + 1))
          | none => none) from rfl, if_neg hnl, hseek]
    show some (([] : List Char), (content2 ++ '>' :: post).drop
      (content2.length + 1)) = some ([], post)
    rw [hdropc]
  unfold deleteTag runPass
  simp only [List.append_assoc, List.cons_append]
  rw [genScan_walk tagStep pre ('<' :: c2 :: (content2 ++ '>' :: post)) _
    ?hpre]
  case hpre =>
    intro n hn
    cases hdrop : pre.drop n with
    | nil =>
      exfalso
      have := congrArg List.length hdrop
      simp at this
      omega
    | cons c r =>
      have hc : c ∈ pre := List.mem_of_mem_drop (by rw [hdrop]; simp)
      exact tagStep_head _ (hpre c hc)
  congr 1
  rw [show (pre ++ '<' :: c2 :: (content2 ++ '>' :: post)).length - pre.length
    = ('<' :: c2 :: (content2 ++ '>' :: post)).length from by simp]
  obtain ⟨N, hN⟩ : ∃ N, ('<' :: c2 :: (content2 ++ '>' :: post)).length = N + 1 :=
    ⟨_, rfl⟩
  rw [hN]
  rw [show genScan tagStep (N + 1) ('<' :: c2 :: (content2 ++ '>' :: post))
    = (match tagStep ('<' :: c2 :: (content2 ++ '>' :: post)) with
       | some (out, next) => out ++ genScan tagStep N next
       | none => '<' :: genScan tagStep N (c2 :: (content2 ++ '>' :: post)))
    from rfl, hstep]
  show genScan tagStep N post = genScan tagStep post.length post
  have hNge : post.length ≤ N := by
    have : ('<' :: c2 :: (content2 ++ '>' :: post)).length
        = content2.length + post.length + 3 := by simp; omega
    omega
  exact genScan_fuel tagStep tagStep_shrink _ _ post hNge (le_refl _)

/-! Claim theorems (C1 – C5). -/

/-- C1, counterexample: converting already-converted plain text a second
time does not return the identical string.  `"a\nb"` (the engine's own
output for `"a<br>b"`, markup-free) loses its newline to the CR/LF strip
of the line-break pass, and the ruby-annotated output `｜漢字《かんじ》`
has its `《》` glyphs swapped to `≪≫` by a second pass even when the
line-break pass is skipped (`preHTML = true`). -/
theorem claim1_counterexample :
    ToAozora false false "a<br>b".data = "a\n\x62".data ∧
    ToAozora false false "a\n\x62".data = "ab".data ∧
    ("ab".data : List Char) ≠ "a\n\x62".data ∧
    ToAozora false false "<ruby>漢字<rt>かんじ</rt></ruby>".data
      = "｜漢字《かんじ》".data ∧
    ToAozora false true "｜漢字《かんじ》".data = "｜漢字≪かんじ≫".data ∧
    ("｜漢字≪かんじ≫".data : List Char) ≠ "｜漢字《かんじ》".data := by
  refine ⟨by decide, by decide, by decide, by decide, by decide, by decide⟩

/-- C1, amended: `ToAozora` is idempotent (indeed the identity) on plain
text containing none of the runes `<`, `&`, `《`, `》`, CR, LF, for every
flag combination.  Already-converted output in general is not a fixed
point: newlines and `《》` produced by the first conversion are rewritten
again (see the counterexample). -/
theorem claim1_theorem (strip preHTML : Bool) (l : List Char)
    (h : ∀ c ∈ l, inertChar c) : ToAozora strip preHTML l = l :=
  ToAozoraOrd_id strip preHTML entityPairs entityPairs_ampHeaded l h

/-- Witness for C1 at a concrete inert string. -/
theorem claim1_witness :
    (∀ c ∈ "こんにちは abc>".data, inertChar c) ∧
    ToAozora false false "こんにちは abc>".data = "こんにちは abc>".data :=
  ⟨by decide, claim1_theorem false false "こんにちは abc>".data (by decide)⟩

/-- C2, counterexample: the conversion engine is not deterministic as a
whole-program property.  `restoreHTMLEntity` iterates a Go map, whose
iteration order is unspecified; two orders that are permutations of the
same table produce different outputs on `"&amp;lt;"` (the `&amp;`
replacement creates a fresh `&lt;` occurrence that only some orders then
rewrite). -/
theorem claim2_counterexample :
    List.Perm (("&lt;".data, "<".data) :: ("&amp;".data, "&".data)
        :: entityPairs.drop 2) entityPairs ∧
    ToAozoraOrd false false entityPairs "&amp;lt;".data = "<".data ∧
    ToAozoraOrd false false (("&lt;".data, "<".data) :: ("&amp;".data, "&".data)
        :: entityPairs.drop 2) "&amp;lt;".data = "&lt;".data ∧
    ("<".data : List Char) ≠ "&lt;".data := by
  refine ⟨by decide, by decide, by decide, by decide⟩

/-- C2, amended: for each fixed iteration order the engine is a pure
function of its input, and on inputs free of `&` the output does not
depend on the iteration order at all (the entity stage is the only
order-sensitive pass). -/
theorem claim2_theorem (strip preHTML : Bool)
    (ord : List (List Char × List Char)) (hord : ampHeaded ord)
    (l : List Char) (h : ampFree l) :
    ToAozoraOrd strip preHTML ord l = ToAozoraOrd strip preHTML entityPairs l :=
  ToAozoraOrd_entity_indep strip preHTML ord hord l h

/-- Witness for C2 at a concrete order and input. -/
theorem claim2_witness :
    ampHeaded (("&lt;".data, "<".data) :: ("&amp;".data, "&".data)
        :: entityPairs.drop 2) ∧
    ampFree "x<b>y</b>z".data ∧
    ToAozoraOrd false false (("&lt;".data, "<".data) :: ("&amp;".data, "&".data)
        :: entityPairs.drop 2) "x<b>y</b>z".data
      = ToAozoraOrd false false entityPairs "x<b>y</b>z".data :=
  ⟨by decide, by decide,
   claim2_theorem false false _ (by decide) _ (by decide)⟩

/-- C3: the code contradicts the claim on case-insensitivity.  CR/LF
stripping and the rewriting of lowercase `<br>`, `<br />`, `<br >`
behave as claimed, but `<BR>` is left untouched: `brToAozora` compiles
`<br.*?>` without the `(?i)` flag that every sibling tag pass carries,
so line-break tags are matched case-sensitively. -/
theorem claim3_theorem :
    brToAozora "a\r\n\x62<br>c<br />d<BR>e".data = "ab\nc\nd<BR>e".data ∧
    brToAozora "<BR>".data = "<BR>".data ∧
    ("<BR>".data : List Char) ≠ "\n".data := by
  refine ⟨by decide, by decide, by decide⟩

/-- C4, counterexample: a `<...>` span containing a newline is NOT
removed: the `<.+?>` pattern is compiled without the `s` flag, so `.`
does not match a newline. -/
theorem claim4_counterexample :
    deleteTag "x<a\n\x62>y".data = "x<a\n\x62>y".data ∧
    deleteTag "<a\n\x62>".data = "<a\n\x62>".data ∧
    ("<a\n\x62>".data : List Char) ≠ ([] : List Char) := by
  refine ⟨by decide, by decide, by decide⟩

/-- C4, amended: `deleteTag` removes every remaining `<...>` span whose
minimal match does not cross a newline: for a prefix without `<`, a
non-empty span body without `>` or newline, and the closing `>`, the
span is deleted and stripping continues after it. -/
theorem claim4_theorem (pre content post : List Char)
    (hpre : ∀ c ∈ pre, c ≠ '<')
    (hnn : content ≠ [])
    (hcontent : ∀ c ∈ content, c ≠ '>' ∧ c ≠ '\n') :
    deleteTag (pre ++ '<' :: content ++ '>' :: post) = pre ++ deleteTag post :=
  deleteTag_span pre content post hpre hnn hcontent

/-- Witness for C4 on a concrete two-span input. -/
theorem claim4_witness :
    (∀ c ∈ "ab".data, c ≠ '<') ∧ ("p".data : List Char) ≠ [] ∧
    (∀ c ∈ "p".data, c ≠ '>' ∧ c ≠ '\n') ∧
    deleteTag ("ab".data ++ '<' :: "p".data ++ '>' :: "cd<i>e".data)
      = "ab".data ++ deleteTag "cd<i>e".data :=
  ⟨by decide, by decide, by decide,
   claim4_theorem "ab".data "p".data "cd<i>e".data (by decide) (by decide)
     (by decide)⟩

/-- C5, counterexample: a failed `SetIllustSetting` call does NOT leave
the whole prior configuration intact.  The method overwrites
`illustCurrentURL` before compiling the pattern, so after a call with an
invalid pattern (`"("`) the stored base URL has already changed even
though an error is returned (the compiled pattern itself is kept). -/
theorem claim5_counterexample :
    ((SetIllustSetting ((SetIllustSetting (NewHTMLConverter "t".data)
        "http://old".data []).1) "http://new".data "(".data).2).isSome = true ∧
    (SetIllustSetting ((SetIllustSetting (NewHTMLConverter "t".data)
        "http://old".data []).1) "http://new".data "(".data).1.illustCurrentURL
      ≠ ((SetIllustSetting (NewHTMLConverter "t".data)
        "http://old".data []).1).illustCurrentURL := by
  refine ⟨by decide, by decide⟩

/-- C5, amended: on a syntactically invalid non-empty pattern,
`SetIllustSetting` returns an error and keeps the stored compiled
pattern (and the text and decoration flag), but the stored illustration
base URL has already been overwritten with the new value. -/
theorem claim5_theorem (h : HTMLConverter) (currentURL grepPattern : List Char)
    (hne : grepPattern ≠ []) (hbad : regexpCompileOk grepPattern = false) :
    ((SetIllustSetting h currentURL grepPattern).2).isSome = true ∧
    (SetIllustSetting h currentURL grepPattern).1.illustGrepPattern
      = h.illustGrepPattern ∧
    (SetIllustSetting h currentURL grepPattern).1.text = h.text ∧
    (SetIllustSetting h currentURL grepPattern).1.stripDecorationTag
      = h.stripDecorationTag ∧
    (SetIllustSetting h currentURL grepPattern).1.illustCurrentURL
      = currentURL := by
  unfold SetIllustSetting
  rw [if_neg hne]
  rw [if_neg (by rw [hbad]; exact Bool.false_ne_true)]
  exact ⟨rfl, rfl, rfl, rfl, rfl⟩

/-- Witness for C5 at a concrete converter and the invalid pattern
`"("`. -/
theorem claim5_witness :
    ("(".data : List Char) ≠ [] ∧ regexpCompileOk "(".data = false ∧
    (((SetIllustSetting (NewHTMLConverter "t".data) "u".data "(".data).2).isSome
        = true ∧
      (SetIllustSetting (NewHTMLConverter "t".data) "u".data
          "(".data).1.illustGrepPattern
        = (NewHTMLConverter "t".data).illustGrepPattern ∧
      (SetIllustSetting (NewHTMLConverter "t".data) "u".data "(".data).1.text
        = (NewHTMLConverter "t".data).text ∧
      (SetIllustSetting (NewHTMLConverter "t".data) "u".data
          "(".data).1.stripDecorationTag
        = (NewHTMLConverter "t".data).stripDecorationTag ∧
      (SetIllustSetting (NewHTMLConverter "t".data) "u".data
          "(".data).1.illustCurrentURL = "u".data) :=
  ⟨by decide, by decide,
   claim5_theorem (NewHTMLConverter "t".data) "u".data "(".data (by decide)
     (by decide)⟩

/-! Machinery for the orchestration claims (C7, C9, C10). -/

/-- True for the events that touch the network or the disk. -/
def isNetOrDisk : DLEvent → Bool
  | .fetched _ => true
  | .fetchFailed _ _ => true
  | .saved _ => true
  | _ => false

/-- The trace of a run that skips `n` chapters starting at index `i`. -/
def skipEvents (total : Nat) : Nat → Nat → List DLEvent
  | _, 0 => []
  | i, n + 1 =>
    .progress i total :: .skipped i :: skipEvents total (i + 1) n

/-- With both artifact flags off, `shouldSkipEpisode` is constantly
true. -/
theorem shouldSkip_flags_off (fs : FS) (savePath fileName ep : List Char) :
    shouldSkipEpisode fs savePath fileName ep false false = true := rfl

theorem downloadLoop_all_skip (fs : FS) (savePath nc : List Char)
    (total : Nat) :
    ∀ (chapters : List Chapter) (i fails : Nat)
      (acc : List (List Char × List Char)),
      downloadLoop fs savePath false false nc total i fails chapters acc
        = (none, skipEvents total i chapters.length, acc) := by
  intro chapters
  induction chapters with
  | nil => intro i fails acc; rfl
  | cons ch rest ih =>
    intro i fails acc
    simp only [downloadLoop, shouldSkip_flags_off, if_true, ih,
      List.length_cons, skipEvents]

theorem skipEvents_no_net_disk (total : Nat) :
    ∀ n i, ∀ e ∈ skipEvents total i n, isNetOrDisk e = false := by
  intro n
  induction n with
  | zero => intro i e he; simp [skipEvents] at he
  | succ m ih =>
    intro i e he
    simp only [skipEvents, List.mem_cons] at he
    rcases he with he | he | he
    · subst he; rfl
    · subst he; rfl
    · exact ih (i + 1) e he

/-- The loop only reports chapter indices at or above its starting
index. -/
theorem downloadLoop_fetched_ge (fs : FS) (savePath : List Char)
    (cH cT : Bool) (nc : List Char) (total : Nat) :
    ∀ (chapters : List Chapter) (i fails : Nat)
      (acc : List (List Char × List Char)) (j : Nat),
      DLEvent.fetched j ∈
        (downloadLoop fs savePath cH cT nc total i fails chapters acc).2.1 →
      i ≤ j := by
  intro chapters
  induction chapters with
  | nil => intro i fails acc j hj; simp [downloadLoop] at hj
  | cons ch rest ih =>
    intro i fails acc j hj
    simp only [downloadLoop] at hj
    by_cases hskip : shouldSkipEpisode fs savePath
        (generateFileName nc (episodeOf ch i)) (episodeOf ch i) cH cT = true
    · rw [if_pos hskip] at hj
      simp only [List.mem_cons] at hj
      rcases hj with hj | hj | hj
      · exact absurd hj (by simp)
      · exact absurd hj (by simp)
      · exact Nat.le_of_succ_le (ih (i + 1) fails acc j hj)
    · rw [if_neg hskip] at hj
      cases hf : ch.fetch with
      | error e =>
        simp only [hf] at hj
        by_cases h3 : 3 ≤ fails + 1
        · rw [if_pos h3] at hj
          simp only [List.mem_cons] at hj
          rcases hj with hj | hj | hj | hj
          · exact absurd hj (by simp)
          · exact le_of_eq (by injection hj.symm)
          · exact absurd hj (by simp)
          · simp at hj
        · rw [if_neg h3] at hj
          simp only [List.mem_cons] at hj
          rcases hj with hj | hj | hj | hj
          · exact absurd hj (by simp)
          · exact le_of_eq (by injection hj.symm)
          · exact absurd hj (by simp)
          · exact Nat.le_of_succ_le (ih (i + 1) (fails + 1) acc j hj)
      | ok content =>
        simp only [hf] at hj
        simp only [List.mem_cons, List.mem_append] at hj
        rcases hj with hj | hj | hj
        · exact absurd hj (by simp)
        · exact le_of_eq (by injection hj.symm)
        · rcases hj with hj | hj
          · cases cT with
            | true => simp at hj
            | false => simp at hj
          · exact Nat.le_of_succ_le
              (ih (i + 1) 0 (acc ++ [(ch.title, content)]) j hj)

/-- Boolean abort recursion mirroring the failure counter. -/
def abortsB : Nat → List (Except (List Char) (List Char)) → Bool
  | _, [] => false
  | f, e :: r =>
    match e with
    | .error _ => if 3 ≤ f + 1 then true else abortsB (f + 1) r
    | .ok _ => abortsB 0 r

theorem leadErrs_mono {m n : Nat} (h : n ≤ m) :
    ∀ l, leadErrs m l = true → leadErrs n l = true := by
  induction m generalizing n with
  | zero =>
    intro l _
    have : n = 0 := Nat.le_zero.mp h
    subst this
    rfl
  | succ m2 ih =>
    intro l hl
    cases n with
    | zero => rfl
    | succ n2 =>
      cases l with
      | nil => simp [leadErrs] at hl
      | cons x r =>
        simp only [leadErrs, Bool.and_eq_true] at hl ⊢
        exact ⟨hl.1, ih (Nat.succ_le_succ_iff.mp h) r hl.2⟩

theorem leadErrs_three_hasTrio :
    ∀ l, leadErrs 3 l = true → hasTrio l = true := by
  intro l hl
  cases l with
  | nil => simp [leadErrs] at hl
  | cons x r => simp [hasTrio, hl]

theorem abortsB_characterization :
    ∀ (l : List (Except (List Char) (List Char))) (fails : Nat),
      fails ≤ 2 →
      abortsB fails l = (leadErrs (3 - fails) l || hasTrio l) := by
  intro l
  induction l with
  | nil =>
    intro fails hf
    have h1 : leadErrs (3 - fails) ([] : List (Except (List Char) (List Char)))
        = false := by
      have : ∃ k, 3 - fails = k + 1 := ⟨2 - fails, by omega⟩
      obtain ⟨k, hk⟩ := this
      rw [hk]
      rfl
    simp [abortsB, h1, hasTrio]
  | cons e r ih =>
    intro fails hf
    cases e with
    | error msg =>
      show (if 3 ≤ fails + 1 then true else abortsB (fails + 1) r) = _
      by_cases h3 : 3 ≤ fails + 1
      · rw [if_pos h3]
        have hfails : fails = 2 := by omega
        subst hfails
        show true = (leadErrs 1 (.error msg :: r) || hasTrio (.error msg :: r))
        simp [leadErrs, isErrE]
      · rw [if_neg h3]
        have hle : fails + 1 ≤ 2 := by omega
        rw [ih (fails + 1) hle]
        have e1 : leadErrs (3 - fails) (.error msg :: r)
            = leadErrs (2 - fails) r := by
          have : ∃ k, 3 - fails = k + 1 ∧ k = 2 - fails := ⟨2 - fails, by omega, rfl⟩
          obtain ⟨k, hk, hk2⟩ := this
          rw [hk, hk2]
          simp [leadErrs, isErrE]
        have e2 : hasTrio (.error msg :: r)
            = (leadErrs 2 r || hasTrio r) := by
          show (leadErrs 3 (.error msg :: r) || hasTrio r) = _
          simp [leadErrs, isErrE]
        rw [e1, e2]
        have h21 : 3 - (fails + 1) = 2 - fails := by omega
        rw [h21]
        cases hv : leadErrs 2 r with
        | false => simp
        | true =>
          have : leadErrs (2 - fails) r = true :=
            leadErrs_mono (by omega) r hv
          simp [this]
    | ok content =>
      show abortsB 0 r = _
      rw [ih 0 (by omega)]
      have e1 : leadErrs (3 - fails) (.ok content :: r) = false := by
        have : ∃ k, 3 - fails = k + 1 := ⟨2 - fails, by omega⟩
        obtain ⟨k, hk⟩ := this
        rw [hk]
        simp [leadErrs, isErrE]
      have e2 : hasTrio (.ok content :: r) = hasTrio r := by
        show (leadErrs 3 (.ok content :: r) || hasTrio r) = _
        simp [leadErrs, isErrE]
      rw [e1, e2]
      show (leadErrs 3 r || hasTrio r) = (false || hasTrio r)
      cases hv : leadErrs 3 r with
      | false => rfl
      | true => simp [leadErrs_three_hasTrio r hv]

theorem downloadLoop_isSome_abortsB (fs : FS) (savePath : List Char)
    (cH cT : Bool) (nc : List Char) (total : Nat) :
    ∀ (chapters : List Chapter) (i fails : Nat)
      (acc : List (List Char × List Char)),
      (downloadLoop fs savePath cH cT nc total i fails chapters acc).1.isSome
        = abortsB fails (fetchSeq fs savePath cH cT nc i chapters) := by
  intro chapters
  induction chapters with
  | nil => intro i fails acc; rfl
  | cons ch rest ih =>
    intro i fails acc
    simp only [downloadLoop, fetchSeq]
    by_cases hskip : shouldSkipEpisode fs savePath
        (generateFileName nc (episodeOf ch i)) (episodeOf ch i) cH cT = true
    · rw [if_pos hskip, if_pos hskip]
      exact ih (i + 1) fails acc
    · rw [if_neg hskip, if_neg hskip]
      cases hf : ch.fetch with
      | error e =>
        simp only [abortsB]
        by_cases h3 : 3 ≤ fails + 1
        · rw [if_pos h3, if_pos h3]
          rfl
        · rw [if_neg h3, if_neg h3]
          exact ih (i + 1) (fails + 1) acc
      | ok content =>
        simp only [abortsB]
        exact ih (i + 1) 0 (acc ++ [(ch.title, content)])

/-- Whenever the loop aborts, the message is the circuit-breaker message
at count 3. -/
theorem downloadLoop_error_msg (fs : FS) (savePath : List Char)
    (cH cT : Bool) (nc : List Char) (total : Nat) :
    ∀ (chapters : List Chapter) (i fails : Nat)
      (acc : List (List Char × List Char)) (m : List Char),
      (downloadLoop fs savePath cH cT nc total i fails chapters acc).1 = some m →
      ∃ e, m = abortMsg 3 e := by
  intro chapters
  induction chapters with
  | nil => intro i fails acc m hm; exact absurd hm (by simp [downloadLoop])
  | cons ch rest ih =>
    intro i fails acc m hm
    simp only [downloadLoop] at hm
    by_cases hskip : shouldSkipEpisode fs savePath
        (generateFileName nc (episodeOf ch i)) (episodeOf ch i) cH cT = true
    · rw [if_pos hskip] at hm
      exact ih (i + 1) fails acc m hm
    · rw [if_neg hskip] at hm
      cases hf : ch.fetch with
      | error e =>
        simp only [hf] at hm
        by_cases h3 : 3 ≤ fails + 1
        · rw [if_pos h3] at hm
          simp only [Option.some.injEq] at hm
          exact ⟨e, hm.symm⟩
        · rw [if_neg h3] at hm
          exact ih (i + 1) (fails + 1) acc m hm
      | ok content =>
        simp only [hf] at hm
        exact ih (i + 1) 0 (acc ++ [(ch.title, content)]) m hm

/-! Claim theorems (C7, C9, C10). -/

/-- C7: the circuit breaker.  (1) Starting from a zero counter, the run
aborts exactly when the per-fetch outcome sequence (skipped chapters
excluded) contains three adjacent failures — so earlier successes are
irrelevant, two consecutive failures never abort, and a success resets
the window.  (2) Any abort carries the fatal message referencing the
fixed count 3.  (3) A successful fetch resets the running counter to
zero.  (4) At the third consecutive failure the orchestrator returns at
once: the remaining chapters contribute nothing to the result. -/
theorem claim7_theorem (fs : FS) (savePath : List Char) (cH cT : Bool)
    (nc : List Char) (total : Nat) :
    (∀ (chapters : List Chapter) (i : Nat)
        (acc : List (List Char × List Char)),
      (downloadLoop fs savePath cH cT nc total i 0 chapters acc).1.isSome
        = hasTrio (fetchSeq fs savePath cH cT nc i chapters)) ∧
    (∀ (chapters : List Chapter) (i fails : Nat)
        (acc : List (List Char × List Char)) (m : List Char),
      (downloadLoop fs savePath cH cT nc total i fails chapters acc).1 = some m →
      ∃ e, m = abortMsg 3 e) ∧
    (∀ (ch : Chapter) (rest : List Chapter) (i fails : Nat)
        (acc : List (List Char × List Char)) (content : List Char),
      shouldSkipEpisode fs savePath (generateFileName nc (episodeOf ch i))
          (episodeOf ch i) cH cT = false →
      ch.fetch = .ok content →
      downloadLoop fs savePath cH cT nc total i fails (ch :: rest) acc
        = ((downloadLoop fs savePath cH cT nc total (i + 1) 0 rest
              (acc ++ [(ch.title, content)])).1,
           .progress i total :: .fetched i ::
             ((if cT then [DLEvent.saved (generateFileName nc (episodeOf ch i))]
               else []) ++
              (downloadLoop fs savePath cH cT nc total (i + 1) 0 rest
                (acc ++ [(ch.title, content)])).2.1),
           (downloadLoop fs savePath cH cT nc total (i + 1) 0 rest
              (acc ++ [(ch.title, content)])).2.2)) ∧
    (∀ (ch : Chapter) (rest : List Chapter) (i : Nat)
        (acc : List (List Char × List Char)) (e : List Char),
      shouldSkipEpisode fs savePath (generateFileName nc (episodeOf ch i))
          (episodeOf ch i) cH cT = false →
      ch.fetch = .error e →
      downloadLoop fs savePath cH cT nc total i 2 (ch :: rest) acc
        = (some (abortMsg 3 e),
           [.progress i total, .fetched i, .fetchFailed i 3], acc)) := by
  refine ⟨?_, downloadLoop_error_msg fs savePath cH cT nc total, ?_, ?_⟩
  · intro chapters i acc
    rw [downloadLoop_isSome_abortsB fs savePath cH cT nc total chapters i 0 acc,
      abortsB_characterization (fetchSeq fs savePath cH cT nc i chapters) 0
        (by omega)]
    cases hv : leadErrs 3 (fetchSeq fs savePath cH cT nc i chapters) with
    | false => simp
    | true => simp [leadErrs_three_hasTrio _ hv]
  · intro ch rest i fails acc content hskip hok
    simp only [downloadLoop, hskip, hok, Bool.false_eq_true, if_false]
  · intro ch rest i acc e hskip herr
    simp only [downloadLoop, hskip, herr, Bool.false_eq_true, if_false]
    rfl

/-- Witness for C7: a run with one success, two failures, another
success (counter reset), then three consecutive failures, which aborts;
and concrete instances of the reset and third-failure equations. -/
theorem claim7_witness :
    ((downloadLoop [] "/sv".data false true "N".data 9 0 0
        [⟨"u".data, "t".data, .ok "c".data⟩,
         ⟨"u".data, "t".data, .error "x".data⟩,
         ⟨"u".data, "t".data, .error "x".data⟩,
         ⟨"u".data, "t".data, .ok "c".data⟩,
         ⟨"u".data, "t".data, .error "x".data⟩,
         ⟨"u".data, "t".data, .error "x".data⟩,
         ⟨"u".data, "t".data, .error "x".data⟩] []).1.isSome
      = hasTrio (fetchSeq [] "/sv".data false true "N".data 0
        [⟨"u".data, "t".data, .ok "c".data⟩,
         ⟨"u".data, "t".data, .error "x".data⟩,
         ⟨"u".data, "t".data, .error "x".data⟩,
         ⟨"u".data, "t".data, .ok "c".data⟩,
         ⟨"u".data, "t".data, .error "x".data⟩,
         ⟨"u".data, "t".data, .error "x".data⟩,
         ⟨"u".data, "t".data, .error "x".data⟩])) ∧
    (shouldSkipEpisode [] "/sv".data
        (generateFileName "N".data (episodeOf ⟨"u".data, "t".data,
          .error "x".data⟩ 0)) (episodeOf ⟨"u".data, "t".data,
          .error "x".data⟩ 0) false true = false) ∧
    downloadLoop [] "/sv".data false true "N".data 9 0 2
        [⟨"u".data, "t".data, .error "x".data⟩] []
      = (some (abortMsg 3 "x".data),
         [.progress 0 9, .fetched 0, .fetchFailed 0 3], []) := by
  refine ⟨(claim7_theorem [] "/sv".data false true "N".data 9).1 _ 0 [],
    by decide, ?_⟩
  exact (claim7_theorem [] "/sv".data false true "N".data 9).2.2.2
    ⟨"u".data, "t".data, .error "x".data⟩ [] 0 [] "x".data (by decide) rfl

/-- C9, counterexample: an existing `{workCode}-{episodeNumber}.txt`
output file does not by itself make the orchestrator skip the chapter:
when `createHtml` is also requested, the (never-written) HTML file is
missing, `shouldSkipEpisode` is false, and the chapter is fetched again
despite its text file existing. -/
theorem claim9_counterexample :
    ("/sv/N1A-5.txt".data ∈
      (["/sv/N1A-5.txt".data] : FS)) ∧
    shouldSkipEpisode ["/sv/N1A-5.txt".data] "/sv".data "N1A-5".data "5".data
      true true = false ∧
    DLEvent.fetched 0 ∈
      (downloadRensai ["/sv/N1A-5.txt".data] "/sv".data true true false
        [⟨"https://ncode.syosetu.com/n1a/5/".data, "t".data,
          .ok "body".data⟩]).2 := by
  refine ⟨by decide, by decide, by decide⟩

/-- C9, amended: a chapter is skipped exactly when every requested
artifact for its computed identifier already exists (`shouldSkipEpisode`
true; artifacts not requested count as present).  In that case the
orchestrator emits the progress label and the skip notice, performs no
fetch of that chapter (no `fetched i` event appears anywhere, since
later iterations only report higher indices), and continues with the
remaining chapters at the next index with the failure counter and
accumulator untouched. -/
theorem claim9_theorem (fs : FS) (savePath : List Char) (cH cT : Bool)
    (nc : List Char) (total : Nat) (ch : Chapter) (rest : List Chapter)
    (i fails : Nat) (acc : List (List Char × List Char))
    (hskip : shouldSkipEpisode fs savePath
      (generateFileName nc (episodeOf ch i)) (episodeOf ch i) cH cT = true) :
    downloadLoop fs savePath cH cT nc total i fails (ch :: rest) acc
      = ((downloadLoop fs savePath cH cT nc total (i + 1) fails rest acc).1,
         .progress i total :: .skipped i ::
           (downloadLoop fs savePath cH cT nc total (i + 1) fails rest acc).2.1,
         (downloadLoop fs savePath cH cT nc total (i + 1) fails rest acc).2.2) ∧
    DLEvent.fetched i ∉
      (downloadLoop fs savePath cH cT nc total i fails (ch :: rest) acc).2.1 := by
  have heq : downloadLoop fs savePath cH cT nc total i fails (ch :: rest) acc
      = ((downloadLoop fs savePath cH cT nc total (i + 1) fails rest acc).1,
         .progress i total :: .skipped i ::
           (downloadLoop fs savePath cH cT nc total (i + 1) fails rest acc).2.1,
         (downloadLoop fs savePath cH cT nc total (i + 1) fails rest acc).2.2) := by
    simp only [downloadLoop, hskip, if_true]
  refine ⟨heq, ?_⟩
  rw [heq]
  intro hmem
  simp only [List.mem_cons] at hmem
  rcases hmem with h1 | h1 | h1
  · exact absurd h1 (by simp)
  · exact absurd h1 (by simp)
  · have := downloadLoop_fetched_ge fs savePath cH cT nc total rest
      (i + 1) fails acc i h1
    omega

/-- Witness for C9: with only the text artifact requested and its file
present, the single chapter is skipped and never fetched. -/
theorem claim9_witness :
    shouldSkipEpisode ["/sv/N1A-5.txt".data] "/sv".data
      (generateFileName "N1A".data (episodeOf
        ⟨"https://ncode.syosetu.com/n1a/5/".data, "t".data, .ok "body".data⟩ 0))
      (episodeOf ⟨"https://ncode.syosetu.com/n1a/5/".data, "t".data,
        .ok "body".data⟩ 0) false true = true ∧
    (downloadLoop ["/sv/N1A-5.txt".data] "/sv".data false true "N1A".data 1 0 0
        [⟨"https://ncode.syosetu.com/n1a/5/".data, "t".data, .ok "body".data⟩] []
      = (none, [.progress 0 1, .skipped 0], []) ∧
     DLEvent.fetched 0 ∉
      (downloadLoop ["/sv/N1A-5.txt".data] "/sv".data false true "N1A".data 1 0 0
        [⟨"https://ncode.syosetu.com/n1a/5/".data, "t".data, .ok "body".data⟩]
        []).2.1) := by
  constructor
  · decide
  · have h := claim9_theorem ["/sv/N1A-5.txt".data] "/sv".data false true
      "N1A".data 1 ⟨"https://ncode.syosetu.com/n1a/5/".data, "t".data,
        .ok "body".data⟩ [] 0 0 [] (by decide)
    exact ⟨h.1, h.2⟩

/-- C10: with both `createHtml` and `createTxt` off, both existence
flags of `isFileAlreadySaved` default to true, `shouldSkipEpisode` is
constantly true, the loop deterministically skips every chapter (its
trace is exactly the progress/skip pairs, no error, accumulator
untouched), and a whole `downloadRensai` run touches neither the
network nor the disk. -/
theorem claim10_theorem :
    (∀ (fs : FS) (savePath fileName ep : List Char),
      isFileAlreadySaved fs savePath fileName ep false false = (true, true)) ∧
    (∀ (fs : FS) (savePath fileName ep : List Char),
      shouldSkipEpisode fs savePath fileName ep false false = true) ∧
    (∀ (fs : FS) (savePath nc : List Char) (total : Nat)
        (chapters : List Chapter) (i fails : Nat)
        (acc : List (List Char × List Char)),
      downloadLoop fs savePath false false nc total i fails chapters acc
        = (none, skipEvents total i chapters.length, acc)) ∧
    (∀ (fs : FS) (savePath : List Char) (cc : Bool)
        (chapters : List Chapter),
      ∀ e ∈ (downloadRensai fs savePath false false cc chapters).2,
        isNetOrDisk e = false) := by
  refine ⟨fun _ _ _ _ => rfl, fun _ _ _ _ => rfl,
    fun fs savePath nc total chapters i fails acc =>
      downloadLoop_all_skip fs savePath nc total chapters i fails acc, ?_⟩
  intro fs savePath cc chapters e he
  cases chapters with
  | nil => simp [downloadRensai] at he
  | cons c0 rest =>
    simp only [downloadRensai, downloadLoop_all_skip] at he
    simp only [Bool.false_eq_true, and_false, if_false, List.append_nil] at he
    exact skipEvents_no_net_disk _ _ _ e he

/-! Machinery for the entity round-trip claim (C8). -/

theorem hasPrefixEx_append_self :
    ∀ (t l : List Char), hasPrefixEx t (t ++ l) = true := by
  intro t
  induction t with
  | nil => intro l; rfl
  | cons c r ih => intro l; simp [hasPrefixEx, ih l]

/-- An exact-prefix match over a concatenation either stays inside the
first part or swallows it whole. -/
theorem hasPrefixEx_split :
    ∀ (pat t L : List Char), hasPrefixEx pat (t ++ L) = true →
      hasPrefixEx pat t = true ∨ hasPrefixEx t pat = true := by
  intro pat
  induction pat with
  | nil => intro t L _; exact Or.inl rfl
  | cons p ps ih =>
    intro t L h
    cases t with
    | nil => exact Or.inr rfl
    | cons x t2 =>
      rw [show hasPrefixEx (p :: ps) ((x :: t2) ++ L)
          = (if x = p then hasPrefixEx ps (t2 ++ L) else false) from rfl] at h
      by_cases hx : x = p
      · rw [if_pos hx] at h
        rcases ih t2 L h with h2 | h2
        · exact Or.inl (by rw [show hasPrefixEx (p :: ps) (x :: t2)
            = (if x = p then hasPrefixEx ps t2 else false) from rfl,
            if_pos hx, h2])
        · exact Or.inr (by rw [show hasPrefixEx (x :: t2) (p :: ps)
            = (if p = x then hasPrefixEx t2 ps else false) from rfl,
            if_pos (hx.symm), h2])
      · rw [if_neg hx] at h
        exact absurd h (by simp)

theorem replStep_shrink (p : Char) (ps rep : List Char) :
    ∀ l out next, replStep (p :: ps) rep l = some (out, next) →
      next.length < l.length := by
  intro l out next hs
  unfold replStep at hs
  by_cases hp : hasPrefixEx (p :: ps) l = true
  · rw [if_pos hp] at hs
    simp only [Option.some.injEq, Prod.mk.injEq] at hs
    obtain ⟨-, hn⟩ := hs
    cases l with
    | nil => exact absurd hp (by simp [hasPrefixEx])
    | cons c r =>
      rw [← hn]
      simp only [List.length_drop, List.length_cons]
      omega
  · rw [if_neg hp] at hs; exact absurd hs (by simp)

/-- The central token lemma: on a token-structured string (the image of
a per-rune encoding), one `strings.ReplaceAll` pass replaces exactly the
tokens equal to the pattern, provided no token is a proper prefix of the
pattern, the pattern only prefixes a token it equals, and tokens contain
`&` at most as their first rune. -/
theorem replaceAllEx_flatMap (p2 : Char) (ps2 rep : List Char)
    (tok : Char → List Char) :
    ∀ s : List Char,
      (∀ c ∈ s, hasPrefixEx ('&' :: p2 :: ps2) (tok c) = true →
        tok c = '&' :: p2 :: ps2) →
      (∀ c ∈ s, tok c ≠ '&' :: p2 :: ps2 →
        hasPrefixEx (tok c) ('&' :: p2 :: ps2) = false) →
      (∀ c ∈ s, ∀ x ∈ (tok c).drop 1, x ≠ '&') →
      replaceAllEx ('&' :: p2 :: ps2) rep (s.flatMap tok)
        = s.flatMap (fun c => if tok c = '&' :: p2 :: ps2 then rep else tok c) := by
  intro s
  induction s with
  | nil => intro _ _ _; rfl
  | cons c s2 ih =>
    intro hB1 hB2 hTail
    have ih2 := ih (fun x hx => hB1 x (List.mem_cons_of_mem _ hx))
      (fun x hx => hB2 x (List.mem_cons_of_mem _ hx))
      (fun x hx => hTail x (List.mem_cons_of_mem _ hx))
    simp only [List.flatMap_cons]
    by_cases htc : tok c = '&' :: p2 :: ps2
    · rw [show (if tok c = '&' :: p2 :: ps2 then rep else tok c) = rep
        from if_pos htc, htc]
      unfold replaceAllEx runPass
      have hstep : replStep ('&' :: p2 :: ps2) rep
          (('&' :: p2 :: ps2) ++ s2.flatMap tok)
          = some (rep, s2.flatMap tok) := by
        unfold replStep
        rw [if_pos (hasPrefixEx_append_self _ _)]
        rw [show (('&' :: p2 :: ps2) ++ s2.flatMap tok).drop
            ('&' :: p2 :: ps2).length = s2.flatMap tok from List.drop_left _ _]
      rw [show ('&' :: p2 :: ps2) ++ s2.flatMap tok
          = '&' :: (p2 :: ps2 ++ s2.flatMap tok) from rfl] at hstep ⊢
      rw [show ('&' :: (p2 :: ps2 ++ s2.flatMap tok)).length
          = (p2 :: ps2 ++ s2.flatMap tok).length + 1 from by simp]
      rw [show genScan (replStep ('&' :: p2 :: ps2) rep)
          ((p2 :: ps2 ++ s2.flatMap tok).length + 1)
          ('&' :: (p2 :: ps2 ++ s2.flatMap tok))
        = (match replStep ('&' :: p2 :: ps2) rep
            ('&' :: (p2 :: ps2 ++ s2.flatMap tok)) with
           | some (out, next) => out ++ genScan (replStep ('&' :: p2 :: ps2) rep)
               (p2 :: ps2 ++ s2.flatMap tok).length next
           | none => '&' :: genScan (replStep ('&' :: p2 :: ps2) rep)
               (p2 :: ps2 ++ s2.flatMap tok).length
               (p2 :: ps2 ++ s2.flatMap tok)) from rfl, hstep]
      show rep ++ genScan (replStep ('&' :: p2 :: ps2) rep)
          (p2 :: ps2 ++ s2.flatMap tok).length (s2.flatMap tok)
        = rep ++ s2.flatMap (fun x =>
            if tok x = '&' :: p2 :: ps2 then rep else tok x)
      congr 1
      rw [← ih2]
      unfold replaceAllEx runPass
      refine genScan_fuel _ (replStep_shrink '&' (p2 :: ps2) rep) _ _ _ ?_
        (le_refl _)
      simp only [List.length_cons, List.length_append]
      omega
    · unfold replaceAllEx runPass
      rw [genScan_walk (replStep ('&' :: p2 :: ps2) rep) (tok c)
        (s2.flatMap tok) _ ?hnone]
      case hnone =>
        intro n hn
        cases hdrop : (tok c).drop n with
        | nil =>
          exfalso
          have := congrArg List.length hdrop
          simp at this
          omega
        | cons x r =>
          cases n with
          | zero =>
            rw [List.drop_zero] at hdrop
            rw [← hdrop]
            unfold replStep
            have hnp : hasPrefixEx ('&' :: p2 :: ps2)
                (tok c ++ s2.flatMap tok) = false := by
              by_cases hcontra : hasPrefixEx ('&' :: p2 :: ps2)
                  (tok c ++ s2.flatMap tok) = true
              · rcases hasPrefixEx_split _ _ _ hcontra with h2 | h2
                · exact absurd (hB1 c (List.mem_cons_self _ _) h2) htc
                · rw [hB2 c (List.mem_cons_self _ _) htc] at h2
                  exact absurd h2 (by simp)
              · simpa using hcontra
            rw [hnp]
            rfl
          | succ n2 =>
            have hx : x ∈ (tok c).drop 1 := by
              have hsub : (tok c).drop (n2 + 1) = ((tok c).drop 1).drop n2 := by
                rw [List.drop_drop, Nat.add_comm]
              rw [hsub] at hdrop
              exact List.mem_of_mem_drop (by rw [hdrop]; simp)
            exact replStep_head '&' (p2 :: ps2) rep _
              (hTail c (List.mem_cons_self _ _) x hx)
      rw [if_neg htc]
      congr 1
      rw [← ih2]
      unfold replaceAllEx runPass
      refine genScan_fuel _ (replStep_shrink '&' (p2 :: ps2) rep) _ _ _ ?_
        (le_refl _)
      simp only [List.length_append]
      omega

/-- Encoding of the five reserved characters into their named entities,
as the claim describes it (each reserved rune becomes its entity, all
other runes stay). -/
def tokEnc (c : Char) : List Char :=
  if c = '&' then "&amp;".data
  else if c = '<' then "&lt;".data
  else if c = '>' then "&gt;".data
  else if c = '"' then "&quot;".data
  else if c = aposC then "&apos;".data
  else [c]

/-- The claim's encoder applied to a whole string. -/
def encodeFive (l : List Char) : List Char := l.flatMap tokEnc

/-- Invariant on the per-rune token map as the named replacement passes
run over an ampersand-free source: each rune is either already restored
(a singleton) or still carried by its own entity token. -/
def tokInv (tok : Char → List Char) : Prop :=
  ∀ c, c ≠ '&' →
    tok c = [c] ∨ (c = '<' ∧ tok c = "&lt;".data) ∨
    (c = '>' ∧ tok c = "&gt;".data) ∨ (c = '"' ∧ tok c = "&quot;".data) ∨
    (c = aposC ∧ tok c = "&apos;".data)

/-- The conditions on one replacement pair that keep the token structure
intact: the key is `&`-headed with at least two runes, keys and the four
encoder tokens never properly prefix one another, and the four restoring
keys carry exactly their restored rune. -/
def passOk (p : List Char × List Char) : Prop :=
  2 ≤ p.1.length ∧ p.1.head? = some '&' ∧
  (hasPrefixEx p.1 "&lt;".data = true → "&lt;".data = p.1) ∧
  (hasPrefixEx p.1 "&gt;".data = true → "&gt;".data = p.1) ∧
  (hasPrefixEx p.1 "&quot;".data = true → "&quot;".data = p.1) ∧
  (hasPrefixEx p.1 "&apos;".data = true → "&apos;".data = p.1) ∧
  (hasPrefixEx "&lt;".data p.1 = true → "&lt;".data = p.1) ∧
  (hasPrefixEx "&gt;".data p.1 = true → "&gt;".data = p.1) ∧
  (hasPrefixEx "&quot;".data p.1 = true → "&quot;".data = p.1) ∧
  (hasPrefixEx "&apos;".data p.1 = true → "&apos;".data = p.1) ∧
  (p.1 = "&lt;".data → p.2 = "<".data) ∧
  (p.1 = "&gt;".data → p.2 = ">".data) ∧
  (p.1 = "&quot;".data → p.2 = "\"".data) ∧
  (p.1 = "&apos;".data → p.2 = [aposC])

instance (p : List Char × List Char) : Decidable (passOk p) := by
  unfold passOk; infer_instance

theorem entityPairs_passOk : ∀ p ∈ entityPairs, passOk p := by decide

/-- The token map after one replacement pass. -/
def tokUpd (pat rep : List Char) (tok : Char → List Char) :
    Char → List Char :=
  fun c => if tok c = pat then rep else tok c

theorem passOk_shape {p : List Char × List Char} (hp : passOk p) :
    ∃ q qs, p.1 = '&' :: q :: qs := by
  obtain ⟨h2, hhead, -⟩ := hp
  cases h1 : p.1 with
  | nil => rw [h1] at h2; simp at h2
  | cons a t =>
    cases t with
    | nil => rw [h1] at h2; simp at h2
    | cons b t2 =>
      rw [h1] at hhead
      simp only [List.head?_cons, Option.some.injEq] at hhead
      exact ⟨b, t2, by rw [hhead]⟩

theorem hasPrefixEx_two_singleton (a b : Char) (t : List Char) (x : Char) :
    hasPrefixEx (a :: b :: t) [x] = false := by
  show (if x = a then hasPrefixEx (b :: t) [] else false) = false
  split <;> rfl

theorem tokInv_upd {pat rep : List Char} {tok : Char → List Char}
    (hp : passOk (pat, rep)) (hinv : tokInv tok) :
    tokInv (tokUpd pat rep tok) := by
  obtain ⟨q, qs, hshape⟩ := passOk_shape hp
  have hshape2 : pat = '&' :: q :: qs := hshape
  intro c hc
  rcases hinv c hc with h | ⟨hc2, h⟩ | ⟨hc2, h⟩ | ⟨hc2, h⟩ | ⟨hc2, h⟩
  · left
    unfold tokUpd
    rw [h, if_neg]
    intro heq
    have := congrArg List.length heq
    rw [hshape2] at this
    simp at this
  · unfold tokUpd
    rw [h]
    by_cases hpq : "&lt;".data = pat
    · left
      rw [if_pos hpq, hc2]
      exact hp.2.2.2.2.2.2.2.2.2.2.1 hpq.symm
    · right; left
      rw [if_neg hpq]
      exact ⟨hc2, rfl⟩
  · unfold tokUpd
    rw [h]
    by_cases hpq : "&gt;".data = pat
    · left
      rw [if_pos hpq, hc2]
      exact hp.2.2.2.2.2.2.2.2.2.2.2.1 hpq.symm
    · right; right; left
      rw [if_neg hpq]
      exact ⟨hc2, rfl⟩
  · unfold tokUpd
    rw [h]
    by_cases hpq : "&quot;".data = pat
    · left
      rw [if_pos hpq, hc2]
      exact hp.2.2.2.2.2.2.2.2.2.2.2.2.1 hpq.symm
    · right; right; right; left
      rw [if_neg hpq]
      exact ⟨hc2, rfl⟩
  · unfold tokUpd
    rw [h]
    by_cases hpq : "&apos;".data = pat
    · left
      rw [if_pos hpq, hc2]
      exact hp.2.2.2.2.2.2.2.2.2.2.2.2.2 hpq.symm
    · right; right; right; right
      rw [if_neg hpq]
      exact ⟨hc2, rfl⟩

theorem pass_flatMap {pat rep : List Char} {tok : Char → List Char}
    (hp : passOk (pat, rep)) (hinv : tokInv tok)
    (l : List Char) (hl : ampFree l) :
    replaceAllEx pat rep (l.flatMap tok) = l.flatMap (tokUpd pat rep tok) := by
  obtain ⟨q, qs, hshape⟩ := passOk_shape hp
  subst hshape
  have hB1 : ∀ c ∈ l, hasPrefixEx ('&' :: q :: qs) (tok c) = true →
      tok c = '&' :: q :: qs := by
    intro c hc hpre
    rcases hinv c (hl c hc) with h | ⟨-, h⟩ | ⟨-, h⟩ | ⟨-, h⟩ | ⟨-, h⟩
    · rw [h] at hpre
      rw [hasPrefixEx_two_singleton] at hpre
      exact absurd hpre (by simp)
    · rw [h] at hpre ⊢
      exact hp.2.2.1 hpre
    · rw [h] at hpre ⊢
      exact hp.2.2.2.1 hpre
    · rw [h] at hpre ⊢
      exact hp.2.2.2.2.1 hpre
    · rw [h] at hpre ⊢
      exact hp.2.2.2.2.2.1 hpre
  have hB2 : ∀ c ∈ l, tok c ≠ '&' :: q :: qs →
      hasPrefixEx (tok c) ('&' :: q :: qs) = false := by
    intro c hc hne
    have hcamp := hl c hc
    rcases hinv c hcamp with h | ⟨-, h⟩ | ⟨-, h⟩ | ⟨-, h⟩ | ⟨-, h⟩
    · rw [h]
      show (if '&' = c then hasPrefixEx [] (q :: qs) else false) = false
      rw [if_neg (fun hx => hcamp hx.symm)]
    · rw [h]
      by_cases hb : hasPrefixEx "&lt;".data ('&' :: q :: qs) = true
      · exact absurd (hp.2.2.2.2.2.2.1 hb) (fun hx => hne (h ▸ hx))
      · simpa using hb
    · rw [h]
      by_cases hb : hasPrefixEx "&gt;".data ('&' :: q :: qs) = true
      · exact absurd (hp.2.2.2.2.2.2.2.1 hb) (fun hx => hne (h ▸ hx))
      · simpa using hb
    · rw [h]
      by_cases hb : hasPrefixEx "&quot;".data ('&' :: q :: qs) = true
      · exact absurd (hp.2.2.2.2.2.2.2.2.1 hb) (fun hx => hne (h ▸ hx))
      · simpa using hb
    · rw [h]
      by_cases hb : hasPrefixEx "&apos;".data ('&' :: q :: qs) = true
      · exact absurd (hp.2.2.2.2.2.2.2.2.2.1 hb) (fun hx => hne (h ▸ hx))
      · simpa using hb
  have hTail : ∀ c ∈ l, ∀ x ∈ (tok c).drop 1, x ≠ '&' := by
    intro c hc x hx
    rcases hinv c (hl c hc) with h | ⟨-, h⟩ | ⟨-, h⟩ | ⟨-, h⟩ | ⟨-, h⟩
    · rw [h] at hx; simp at hx
    · rw [h] at hx
      exact (by decide : ∀ y ∈ "&lt;".data.drop 1, y ≠ '&') x hx
    · rw [h] at hx
      exact (by decide : ∀ y ∈ "&gt;".data.drop 1, y ≠ '&') x hx
    · rw [h] at hx
      exact (by decide : ∀ y ∈ "&quot;".data.drop 1, y ≠ '&') x hx
    · rw [h] at hx
      exact (by decide : ∀ y ∈ "&apos;".data.drop 1, y ≠ '&') x hx
  exact replaceAllEx_flatMap q qs rep tok l hB1 hB2 hTail

/-- The named passes over a token-structured string act pointwise on the
token map. -/
theorem fold_flatMap :
    ∀ (ord : List (List Char × List Char)) (tok : Char → List Char)
      (l : List Char),
      (∀ p ∈ ord, passOk p) → tokInv tok → ampFree l →
      ord.foldl (fun acc p => replaceAllEx p.1 p.2 acc) (l.flatMap tok)
          = l.flatMap (ord.foldl (fun tk p => tokUpd p.1 p.2 tk) tok) ∧
        tokInv (ord.foldl (fun tk p => tokUpd p.1 p.2 tk) tok) := by
  intro ord
  induction ord with
  | nil => intro tok l _ hinv _; exact ⟨rfl, hinv⟩
  | cons p rest ih =>
    intro tok l hok hinv hl
    have hp : passOk p := hok p (List.mem_cons_self _ _)
    have hp2 : passOk (p.1, p.2) := by
      rcases p with ⟨a, b⟩; exact hp
    simp only [List.foldl_cons]
    rw [pass_flatMap hp2 hinv l hl]
    exact ih (tokUpd p.1 p.2 tok) l
      (fun x hx => hok x (List.mem_cons_of_mem _ hx))
      (tokInv_upd hp2 hinv) hl

theorem tokEnc_tokInv : tokInv tokEnc := by
  intro c hc
  unfold tokEnc
  rw [if_neg hc]
  by_cases h1 : c = '<'
  · rw [if_pos h1]; exact Or.inr (Or.inl ⟨h1, rfl⟩)
  · rw [if_neg h1]
    by_cases h2 : c = '>'
    · rw [if_pos h2]; exact Or.inr (Or.inr (Or.inl ⟨h2, rfl⟩))
    · rw [if_neg h2]
      by_cases h3 : c = '"'
      · rw [if_pos h3]; exact Or.inr (Or.inr (Or.inr (Or.inl ⟨h3, rfl⟩)))
      · rw [if_neg h3]
        by_cases h4 : c = aposC
        · rw [if_pos h4]; exact Or.inr (Or.inr (Or.inr (Or.inr ⟨h4, rfl⟩)))
        · rw [if_neg h4]; exact Or.inl rfl

theorem fold_keeps_singleton :
    ∀ (ord : List (List Char × List Char)) (tok : Char → List Char) (c : Char),
      (∀ p ∈ ord, 2 ≤ p.1.length) → tok c = [c] →
      ord.foldl (fun tk p => tokUpd p.1 p.2 tk) tok c = [c] := by
  intro ord
  induction ord with
  | nil => intro tok c _ h; exact h
  | cons p rest ih =>
    intro tok c hord h
    simp only [List.foldl_cons]
    apply ih
    · exact fun x hx => hord x (List.mem_cons_of_mem _ hx)
    · unfold tokUpd
      rw [h, if_neg]
      intro heq
      have hlen := congrArg List.length heq
      have := hord p (List.mem_cons_self _ _)
      simp at hlen
      omega

theorem tokAfter_final (c : Char) (hc : c ≠ '&') :
    entityPairs.foldl (fun tk p => tokUpd p.1 p.2 tk) tokEnc c = [c] := by
  by_cases h1 : c = '<'
  · subst h1; decide
  · by_cases h2 : c = '>'
    · subst h2; decide
    · by_cases h3 : c = '"'
      · subst h3; decide
      · by_cases h4 : c = aposC
        · subst h4; decide
        · apply fold_keeps_singleton entityPairs tokEnc c (by decide)
          unfold tokEnc
          rw [if_neg hc, if_neg h1, if_neg h2, if_neg h3, if_neg h4]

theorem flatMap_id_of (tokF : Char → List Char) :
    ∀ l : List Char, (∀ c ∈ l, tokF c = [c]) → l.flatMap tokF = l := by
  intro l
  induction l with
  | nil => intro _; rfl
  | cons c r ih =>
    intro h
    simp only [List.flatMap_cons, h c (List.mem_cons_self _ _)]
    rw [ih (fun x hx => h x (List.mem_cons_of_mem _ hx))]
    rfl

/-- C8 (amended core): the round trip holds on ampersand-free strings. -/
theorem restore_encodeFive (l : List Char) (h : ampFree l) :
    restoreHTMLEntity (encodeFive l) = l := by
  unfold restoreHTMLEntity restoreHTMLEntityOrd encodeFive
  obtain ⟨hfold, -⟩ := fold_flatMap entityPairs tokEnc l entityPairs_passOk
    tokEnc_tokInv h
  rw [hfold]
  rw [flatMap_id_of _ l (fun c hc => tokAfter_final c (h c hc))]
  rw [runPass_id_of_head numStep (fun c => c ≠ '&') rfl
      (fun c r hq => numStep_head r hq) l h,
    runPass_id_of_head hexStep (fun c => c ≠ '&') rfl
      (fun c r hq => hexStep_head r hq) l h]

/-! Machinery for the ruby span claim (C6). -/

/-- Case-insensitive equality with an (ASCII lowercase) pattern: equal
length together with a full case-insensitive prefix match. -/
def ciEq (pat l : List Char) : Prop :=
  l.length = pat.length ∧ startsWithCI pat l = true

instance (pat l : List Char) : Decidable (ciEq pat l) := by
  unfold ciEq; infer_instance

/-- Runes allowed in the base, gloss and parenthetical portions of a
well-formed ruby span: anything except the tag delimiters, a newline
(which would abort the lazy capture), and the two glyphs rewritten by
the `《》` swap. -/
def rubyPlain (c : Char) : Prop :=
  c ≠ '<' ∧ c ≠ '>' ∧ c ≠ '\n' ∧ c ≠ '《' ∧ c ≠ '》'

instance (c : Char) : Decidable (rubyPlain c) := by
  unfold rubyPlain; infer_instance

theorem ciMatch_imp {p c : Char} (h : ciMatch p c = true) :
    c = p ∨ c.toNat + 32 = p.toNat := by
  simp only [ciMatch, Bool.or_eq_true, Bool.and_eq_true,
    decide_eq_true_eq] at h
  tauto

theorem ciMatch_concrete {p c : Char} (hp : decide ('a' ≤ p) = false)
    (h : ciMatch p c = true) : c = p := by
  simp only [ciMatch, hp, Bool.false_and, Bool.or_false,
    decide_eq_true_eq] at h
  exact h

theorem ciMatch_target_ne {p c t : Char} (h : ciMatch p c = true)
    (h1 : ¬ t = p) (h2 : ¬ t.toNat + 32 = p.toNat) : c ≠ t := by
  intro hct
  subst hct
  rcases ciMatch_imp h with h3 | h3
  · exact h1 h3
  · exact h2 h3

theorem ciMatch_lt_false {p c : Char} (h : ciMatch p c = true)
    (h1 : ¬ p = '<') (h2 : ¬ p.toNat = 92) : ciMatch '<' c = false := by
  cases hm : ciMatch '<' c with
  | false => rfl
  | true =>
    exfalso
    have hc : c = '<' := ciMatch_concrete (by decide) hm
    subst hc
    rcases ciMatch_imp h with h3 | h3
    · exact h1 h3.symm
    · have h60 : Char.toNat '<' = 60 := by decide
      rw [h60] at h3
      exact h2 (by omega)

theorem startsWithCI_append {pat : List Char} :
    ∀ (X Y : List Char), startsWithCI pat X = true →
      startsWithCI pat (X ++ Y) = true := by
  induction pat with
  | nil => intro X Y _; rfl
  | cons p ps ih =>
    intro X Y h
    cases X with
    | nil => simp [startsWithCI] at h
    | cons c cs =>
      cases hm : ciMatch p c with
      | false => simp [startsWithCI, hm] at h
      | true =>
        simp only [startsWithCI, hm] at h
        simp only [List.cons_append, startsWithCI, hm]
        simp only [if_true] at h ⊢
        exact ih cs Y h

theorem startsWithCI_cons_inv {p : Char} {ps : List Char} {c : Char}
    {cs : List Char} (h : startsWithCI (p :: ps) (c :: cs) = true) :
    ciMatch p c = true ∧ startsWithCI ps cs = true := by
  cases hm : ciMatch p c with
  | false => simp [startsWithCI, hm] at h
  | true =>
    simp only [startsWithCI, hm, if_true] at h
    exact ⟨rfl, h⟩

theorem startsWithCI_head_false {p : Char} (ps : List Char) {c : Char}
    (cs : List Char) (h : ciMatch p c = false) :
    startsWithCI (p :: ps) (c :: cs) = false := by
  simp [startsWithCI, h]

theorem startsWithCI_step {p : Char} (ps : List Char) {c : Char}
    (cs : List Char) (h : ciMatch p c = true) :
    startsWithCI (p :: ps) (c :: cs) = startsWithCI ps cs := by
  simp [startsWithCI, h]

theorem ciEq_mem :
    ∀ (pat X : List Char), ciEq pat X →
      ∀ c ∈ X, ∃ p ∈ pat, ciMatch p c = true := by
  intro pat
  induction pat with
  | nil =>
    intro X h c hc
    obtain ⟨hlen, -⟩ := h
    have hX : X = [] := List.eq_nil_of_length_eq_zero (by simpa using hlen)
    subst hX
    simp at hc
  | cons p ps ih =>
    intro X h c hc
    obtain ⟨hlen, hsw⟩ := h
    cases X with
    | nil => simp at hlen
    | cons a as =>
      obtain ⟨h1, h2⟩ := startsWithCI_cons_inv hsw
      rcases List.mem_cons.mp hc with hd | hd
      · subst hd
        exact ⟨p, List.mem_cons_self _ _, h1⟩
      · obtain ⟨q, hq1, hq2⟩ := ih as ⟨by simpa using hlen, h2⟩ c hd
        exact ⟨q, List.mem_cons_of_mem _ hq1, hq2⟩

theorem ciEq_ne_char {pat X : List Char} (h : ciEq pat X) (t : Char)
    (hp : ∀ p ∈ pat, ¬ t = p ∧ ¬ t.toNat + 32 = p.toNat) :
    ∀ c ∈ X, c ≠ t := by
  intro c hc
  obtain ⟨p, hp1, hp2⟩ := ciEq_mem pat X h c hc
  exact ciMatch_target_ne hp2 (hp p hp1).1 (hp p hp1).2

/-- A segment in which no case-insensitive occurrence of `pat` can start,
whatever text follows the segment. -/
def NoHitSeg (pat X : List Char) : Prop :=
  ∀ (Y : List Char) (n : Nat), n < X.length →
    startsWithCI pat (X.drop n ++ Y) = false

theorem NoHitSeg_nil (pat : List Char) : NoHitSeg pat [] := by
  intro Y n hn
  simp at hn

theorem NoHitSeg_tail {pat : List Char} {c : Char} {X : List Char}
    (h : NoHitSeg pat (c :: X)) : NoHitSeg pat X := by
  intro Y n hn
  have h2 := h Y (n + 1) (by simp; omega)
  simpa using h2

theorem NoHitSeg_append {pat X1 X2 : List Char} (h1 : NoHitSeg pat X1)
    (h2 : NoHitSeg pat X2) : NoHitSeg pat (X1 ++ X2) := by
  intro Y n hn
  by_cases hlt : n < X1.length
  · rw [List.drop_append_of_le_length (le_of_lt hlt), List.append_assoc]
    exact h1 (X2 ++ Y) n hlt
  · push_neg at hlt
    have hsplit : n = X1.length + (n - X1.length) := by omega
    rw [hsplit, List.drop_append]
    refine h2 Y (n - X1.length) ?_
    simp only [List.length_append] at hn
    omega

theorem NoHitSeg_of_head (p0 : Char) (ps : List Char) (X : List Char)
    (hX : ∀ c ∈ X, ciMatch p0 c = false) : NoHitSeg (p0 :: ps) X := by
  intro Y n hn
  cases hd : X.drop n with
  | nil =>
    exfalso
    have hlen := congrArg List.length hd
    simp at hlen
    omega
  | cons c cs =>
    have hc : c ∈ X := List.mem_of_mem_drop (by rw [hd]; simp)
    exact startsWithCI_head_false ps (cs ++ Y) (hX c hc)

theorem NoHitSeg_plain (ps : List Char) (X : List Char)
    (hX : ∀ c ∈ X, c ≠ '<') : NoHitSeg ('<' :: ps) X := by
  refine NoHitSeg_of_head '<' ps X ?_
  intro c hc
  exact ciMatch_symbol (by decide) (hX c hc)

theorem noHit_cond (pat : List Char) (b : Bool) {X Y : List Char}
    (hX : NoHitSeg pat X) (hY : NoHitSeg pat Y) :
    NoHitSeg pat (cond b X Y) := by
  cases b
  · exact hY
  · exact hX

theorem noHit_close_rb : NoHitSeg "</ruby>".data "<rb>".data := by
  intro Y n hn
  rw [show ("<rb>".data).length = 4 from rfl] at hn
  rcases n with _|_|_|_|m
  · rfl
  · rfl
  · rfl
  · rfl
  · omega

theorem noHit_close_rbc : NoHitSeg "</ruby>".data "</rb>".data := by
  intro Y n hn
  rw [show ("</rb>".data).length = 5 from rfl] at hn
  rcases n with _|_|_|_|_|m
  · rfl
  · rfl
  · rfl
  · rfl
  · rfl
  · omega

theorem noHit_close_rp : NoHitSeg "</ruby>".data "<rp>".data := by
  intro Y n hn
  rw [show ("<rp>".data).length = 4 from rfl] at hn
  rcases n with _|_|_|_|m
  · rfl
  · rfl
  · rfl
  · rfl
  · omega

theorem noHit_close_rpc : NoHitSeg "</ruby>".data "</rp>".data := by
  intro Y n hn
  rw [show ("</rp>".data).length = 5 from rfl] at hn
  rcases n with _|_|_|_|_|m
  · rfl
  · rfl
  · rfl
  · rfl
  · rfl
  · omega

theorem noHit_close_rtc : NoHitSeg "</ruby>".data "</rt>".data := by
  intro Y n hn
  rw [show ("</rt>".data).length = 5 from rfl] at hn
  rcases n with _|_|_|_|_|m
  · rfl
  · rfl
  · rfl
  · rfl
  · rfl
  · omega

theorem noHit_rt_rb : NoHitSeg "<rt>".data "<rb>".data := by
  intro Y n hn
  rw [show ("<rb>".data).length = 4 from rfl] at hn
  rcases n with _|_|_|_|m
  · rfl
  · rfl
  · rfl
  · rfl
  · omega

theorem noHit_rt_rbc : NoHitSeg "<rt>".data "</rb>".data := by
  intro Y n hn
  rw [show ("</rb>".data).length = 5 from rfl] at hn
  rcases n with _|_|_|_|_|m
  · rfl
  · rfl
  · rfl
  · rfl
  · rfl
  · omega

theorem noHit_rt_rp : NoHitSeg "<rt>".data "<rp>".data := by
  intro Y n hn
  rw [show ("<rp>".data).length = 4 from rfl] at hn
  rcases n with _|_|_|_|m
  · rfl
  · rfl
  · rfl
  · rfl
  · omega

theorem noHit_rt_rpc : NoHitSeg "<rt>".data "</rp>".data := by
  intro Y n hn
  rw [show ("</rp>".data).length = 5 from rfl] at hn
  rcases n with _|_|_|_|_|m
  · rfl
  · rfl
  · rfl
  · rfl
  · rfl
  · omega

theorem noHit_rp_rb : NoHitSeg "<rp>".data "<rb>".data := by
  intro Y n hn
  rw [show ("<rb>".data).length = 4 from rfl] at hn
  rcases n with _|_|_|_|m
  · rfl
  · rfl
  · rfl
  · rfl
  · omega

theorem noHit_rp_rbc : NoHitSeg "<rp>".data "</rb>".data := by
  intro Y n hn
  rw [show ("</rb>".data).length = 5 from rfl] at hn
  rcases n with _|_|_|_|_|m
  · rfl
  · rfl
  · rfl
  · rfl
  · rfl
  · omega

theorem noHit_rp_rtc : NoHitSeg "<rp>".data "</rt>".data := by
  intro Y n hn
  rw [show ("</rt>".data).length = 5 from rfl] at hn
  rcases n with _|_|_|_|_|m
  · rfl
  · rfl
  · rfl
  · rfl
  · rfl
  · omega

theorem ciEq_rt_shape {T : List Char} (h : ciEq "<rt>".data T) :
    ∃ t1 t2, T = ['<', t1, t2, '>'] ∧ ciMatch 'r' t1 = true ∧
      ciMatch 't' t2 = true := by
  obtain ⟨hlen, hsw⟩ := h
  rw [show ("<rt>".data).length = 4 from rfl] at hlen
  rcases T with _ | ⟨a, _ | ⟨b, _ | ⟨c, _ | ⟨d, _ | ⟨e, rest⟩⟩⟩⟩⟩
  · simp only [List.length_nil] at hlen
    omega
  · simp only [List.length_cons, List.length_nil] at hlen
    omega
  · simp only [List.length_cons, List.length_nil] at hlen
    omega
  · simp only [List.length_cons, List.length_nil] at hlen
    omega
  · obtain ⟨h1, hsw⟩ := startsWithCI_cons_inv hsw
    obtain ⟨h2, hsw⟩ := startsWithCI_cons_inv hsw
    obtain ⟨h3, hsw⟩ := startsWithCI_cons_inv hsw
    obtain ⟨h4, -⟩ := startsWithCI_cons_inv hsw
    have ha : a = '<' := ciMatch_concrete (by decide) h1
    have hd : d = '>' := ciMatch_concrete (by decide) h4
    subst ha
    subst hd
    exact ⟨b, c, rfl, h2, h3⟩
  · simp only [List.length_cons, List.length_nil] at hlen
    omega

/-- Character facts for a case-insensitive spelling `<`,`t1`,`t2`,`>` of
`<rt>`. -/
theorem rt_var_safe {t1 t2 : Char} (h1 : ciMatch 'r' t1 = true)
    (h2 : ciMatch 't' t2 = true) :
    t1 ≠ '\n' ∧ t2 ≠ '\n' ∧ ciMatch '<' t1 = false ∧
      ciMatch '<' t2 = false ∧ ciMatch '/' t1 = false ∧
      t1 ≠ '《' ∧ t1 ≠ '》' ∧ t2 ≠ '《' ∧ t2 ≠ '》' := by
  refine ⟨ciMatch_target_ne h1 (by decide) (by decide),
    ciMatch_target_ne h2 (by decide) (by decide),
    ciMatch_lt_false h1 (by decide) (by decide),
    ciMatch_lt_false h2 (by decide) (by decide), ?_,
    ciMatch_target_ne h1 (by decide) (by decide),
    ciMatch_target_ne h1 (by decide) (by decide),
    ciMatch_target_ne h2 (by decide) (by decide),
    ciMatch_target_ne h2 (by decide) (by decide)⟩
  cases hm : ciMatch '/' t1 with
  | false => rfl
  | true =>
    exfalso
    have hc : t1 = '/' := ciMatch_concrete (by decide) hm
    subst hc
    rcases ciMatch_imp h1 with h3 | h3
    · exact absurd h3 (by decide)
    · exact absurd h3 (by decide)

theorem noHit_close_rt_var {t1 t2 : Char} (h1 : ciMatch 'r' t1 = true)
    (h2 : ciMatch 't' t2 = true) :
    NoHitSeg "</ruby>".data ['<', t1, t2, '>'] := by
  obtain ⟨-, -, hlt1, hlt2, hsl1, -, -, -, -⟩ := rt_var_safe h1 h2
  intro Y n hn
  rcases n with _|_|_|_|m
  · show startsWithCI ('<' :: '/' :: ['r', 'u', 'b', 'y', '>'])
      ('<' :: t1 :: (t2 :: '>' :: Y)) = false
    rw [startsWithCI_step ('/' :: ['r', 'u', 'b', 'y', '>'])
      (t1 :: (t2 :: '>' :: Y)) (by decide)]
    exact startsWithCI_head_false _ _ hsl1
  · exact startsWithCI_head_false _ _ hlt1
  · exact startsWithCI_head_false _ _ hlt2
  · exact startsWithCI_head_false _ _ (by decide)
  · simp only [List.length_cons, List.length_nil] at hn
    omega

theorem seekCI_here (pat : List Char) {Z : List Char} (hz : Z ≠ [])
    (h : startsWithCI pat Z = true) : seekCI pat Z = some 0 := by
  cases Z with
  | nil => exact absurd rfl hz
  | cons c cs =>
    rw [show seekCI pat (c :: cs)
      = (if startsWithCI pat (c :: cs) = true then some 0
         else if c = '\n' then none
         else (seekCI pat cs).map (· + 1)) from rfl, if_pos h]

theorem seekCI_append (pat : List Char) :
    ∀ (X Y : List Char), NoHitSeg pat X → (∀ c ∈ X, c ≠ '\n') →
      seekCI pat (X ++ Y) = (seekCI pat Y).map (· + X.length) := by
  intro X
  induction X with
  | nil =>
    intro Y _ _
    cases h : seekCI pat Y <;> simp [h]
  | cons c X2 ih =>
    intro Y h1 h2
    have h0 : startsWithCI pat (c :: (X2 ++ Y)) = false := by
      have h3 := h1 Y 0 (by simp)
      simpa using h3
    have hc : c ≠ '\n' := h2 c (List.mem_cons_self _ _)
    show seekCI pat (c :: (X2 ++ Y)) = _
    rw [show seekCI pat (c :: (X2 ++ Y))
      = (if startsWithCI pat (c :: (X2 ++ Y)) = true then some 0
         else if c = '\n' then none
         else (seekCI pat (X2 ++ Y)).map (· + 1)) from rfl,
      if_neg (by simp [h0]), if_neg hc,
      ih Y (NoHitSeg_tail h1) (fun d hd => h2 d (List.mem_cons_of_mem _ hd))]
    cases h : seekCI pat Y <;> simp [h, Nat.add_assoc]

theorem splitFirstCI_here (pat : List Char) (c : Char) (cs : List Char)
    (h : startsWithCI pat (c :: cs) = true) :
    splitFirstCI pat (c :: cs) = some ([], (c :: cs).drop pat.length) := by
  rw [show splitFirstCI pat (c :: cs)
    = (if startsWithCI pat (c :: cs) = true
       then some ([], (c :: cs).drop pat.length)
       else (splitFirstCI pat cs).map (fun p => (c :: p.1, p.2))) from rfl,
    if_pos h]

theorem splitFirstCI_append (pat : List Char) :
    ∀ (X Y : List Char), NoHitSeg pat X →
      splitFirstCI pat (X ++ Y)
        = (splitFirstCI pat Y).map (fun p => (X ++ p.1, p.2)) := by
  intro X
  induction X with
  | nil =>
    intro Y _
    cases h : splitFirstCI pat Y <;> simp [h]
  | cons c X2 ih =>
    intro Y h1
    have h0 : startsWithCI pat (c :: (X2 ++ Y)) = false := by
      have h3 := h1 Y 0 (by simp)
      simpa using h3
    show splitFirstCI pat (c :: (X2 ++ Y)) = _
    rw [show splitFirstCI pat (c :: (X2 ++ Y))
      = (if startsWithCI pat (c :: (X2 ++ Y)) = true
         then some ([], (c :: (X2 ++ Y)).drop pat.length)
         else (splitFirstCI pat (X2 ++ Y)).map (fun p => (c :: p.1, p.2)))
        from rfl,
      if_neg (by simp [h0]), ih Y (NoHitSeg_tail h1)]
    cases h : splitFirstCI pat Y <;> simp [h]

theorem splitFirstCI_none_of (pat X : List Char) (h1 : NoHitSeg pat X) :
    splitFirstCI pat X = none := by
  have h := splitFirstCI_append pat X [] h1
  simpa using h

theorem splitFirstCI_rp (X : List Char) :
    splitFirstCI "<rp>".data ("<rp>".data ++ X) = some ([], X) :=
  splitFirstCI_here "<rp>".data '<' ("rp>".data ++ X)
    (startsWithCI_append "<rp>".data X (by decide))

theorem splitT {t1 t2 : Char} (h1 : ciMatch 'r' t1 = true)
    (h2 : ciMatch 't' t2 = true) (G : List Char) :
    splitFirstCI "<rt>".data (['<', t1, t2, '>'] ++ G) = some ([], G) := by
  have hsw : startsWithCI "<rt>".data ('<' :: t1 :: t2 :: '>' :: G)
      = true := by
    show startsWithCI ('<' :: 'r' :: 't' :: '>' :: []) _ = true
    rw [startsWithCI_step ('r' :: 't' :: '>' :: []) (t1 :: t2 :: '>' :: G)
        (by decide),
      startsWithCI_step ('t' :: '>' :: []) (t2 :: '>' :: G) h1,
      startsWithCI_step ('>' :: []) ('>' :: G) h2,
      startsWithCI_step [] G (by decide)]
    rfl
  exact splitFirstCI_here "<rt>".data '<' (t1 :: t2 :: '>' :: G) hsw

theorem findRubyClose_at (X C2 : List Char) (hne : X ≠ [])
    (hX : NoHitSeg "</ruby>".data X) (hnl : ∀ c ∈ X, c ≠ '\n')
    (hC2 : C2 ≠ []) (hC : startsWithCI "</ruby>".data C2 = true) :
    findRubyClose (X ++ C2) = some X.length := by
  cases X with
  | nil => exact absurd rfl hne
  | cons x X2 =>
    show findRubyClose (x :: (X2 ++ C2)) = _
    rw [show findRubyClose (x :: (X2 ++ C2))
      = (if x = '\n' then none
         else (seekCI "</ruby>".data (X2 ++ C2)).map (· + 1)) from rfl,
      if_neg (hnl x (List.mem_cons_self _ _)),
      seekCI_append "</ruby>".data X2 C2 (NoHitSeg_tail hX)
        (fun c hc => hnl c (List.mem_cons_of_mem _ hc)),
      seekCI_here "</ruby>".data hC2 hC]
    simp

theorem forall_mem_append2 {P : Char → Prop} {X Y : List Char}
    (h1 : ∀ c ∈ X, P c) (h2 : ∀ c ∈ Y, P c) : ∀ c ∈ X ++ Y, P c := by
  intro c hc
  rcases List.mem_append.mp hc with h | h
  · exact h1 c h
  · exact h2 c h

theorem forall_mem_cond {P : Char → Prop} (b : Bool) {X Y : List Char}
    (h1 : ∀ c ∈ X, P c) (h2 : ∀ c ∈ Y, P c) : ∀ c ∈ cond b X Y, P c := by
  cases b
  · exact h2
  · exact h1

theorem forall_mem_quad {P : Char → Prop} {a b c d : Char}
    (ha : P a) (hb : P b) (hc : P c) (hd : P d) :
    ∀ x ∈ [a, b, c, d], P x := by
  intro x hx
  rcases List.mem_cons.mp hx with h | hx
  · subst h; exact ha
  rcases List.mem_cons.mp hx with h | hx
  · subst h; exact hb
  rcases List.mem_cons.mp hx with h | hx
  · subst h; exact hc
  rcases List.mem_cons.mp hx with h | hx
  · subst h; exact hd
  simp at hx

theorem append_cons_ne_nil (X Y Z : List Char) (c : Char) :
    X ++ (Y ++ (c :: Z)) ≠ [] := by
  intro h
  have hlen := congrArg List.length h
  simp only [List.length_append, List.length_cons, List.length_nil] at hlen
  omega

theorem swapAngle_id_of (l : List Char)
    (h : ∀ c ∈ l, c ≠ '《' ∧ c ≠ '》') : swapAngle l = l := by
  induction l with
  | nil => rfl
  | cons c r ih =>
    obtain ⟨h1, h2⟩ := h c (List.mem_cons_self _ _)
    show (if c = '《' then '≪' else if c = '》' then '≫' else c)
      :: swapAngle r = c :: r
    rw [if_neg h1, if_neg h2, ih (fun x hx => h x (List.mem_cons_of_mem _ hx))]

theorem deleteTag_plain (l : List Char) (h : ∀ c ∈ l, c ≠ '<') :
    deleteTag l = l :=
  runPass_id_of_head tagStep (fun c => c ≠ '<') rfl
    (fun c r hq => tagStep_head r hq) l h

theorem deleteTag_rb (base : List Char) (hb : ∀ c ∈ base, c ≠ '<') :
    deleteTag ("<rb>".data ++ (base ++ "</rb>".data)) = base := by
  have h1 : deleteTag ("<rb>".data ++ (base ++ "</rb>".data))
      = [] ++ deleteTag (base ++ "</rb>".data) :=
    deleteTag_span [] ['r', 'b'] (base ++ "</rb>".data)
      (by intro c hc; simp at hc) (by simp) (by decide)
  have h2 : deleteTag (base ++ "</rb>".data) = base ++ deleteTag [] := by
    have h0 := deleteTag_span base ['/', 'r', 'b'] [] hb (by simp) (by decide)
    rw [List.append_assoc] at h0
    exact h0
  rw [h1, List.nil_append, h2, show deleteTag ([] : List Char) = [] from rfl,
    List.append_nil]

theorem deleteTag_rtc (gloss : List Char) (hg : ∀ c ∈ gloss, c ≠ '<') :
    deleteTag (gloss ++ "</rt>".data) = gloss := by
  have h2 : deleteTag (gloss ++ "</rt>".data) = gloss ++ deleteTag [] := by
    have h0 := deleteTag_span gloss ['/', 'r', 't'] [] hg (by simp) (by decide)
    rw [List.append_assoc] at h0
    exact h0
  rw [h2, show deleteTag ([] : List Char) = [] from rfl, List.append_nil]

theorem stripBase (useRb useRp1 : Bool) (base d1 : List Char)
    (hb : ∀ c ∈ base, c ≠ '<') (hd1 : ∀ c ∈ d1, c ≠ '<') :
    deleteTag (bsplit "<rp>".data
      (cond useRb ("<rb>".data ++ (base ++ "</rb>".data)) base ++
        cond useRp1 ("<rp>".data ++ (d1 ++ "</rp>".data)) [])) = base := by
  have hB : NoHitSeg "<rp>".data
      (cond useRb ("<rb>".data ++ (base ++ "</rb>".data)) base) := by
    cases useRb with
    | false => exact NoHitSeg_plain _ base hb
    | true =>
      exact NoHitSeg_append noHit_rp_rb
        (NoHitSeg_append (NoHitSeg_plain _ base hb) noHit_rp_rbc)
  have hDel : deleteTag
      (cond useRb ("<rb>".data ++ (base ++ "</rb>".data)) base) = base := by
    cases useRb with
    | false => exact deleteTag_plain base hb
    | true => exact deleteTag_rb base hb
  cases useRp1 with
  | false =>
    simp only [Bool.cond_false, List.append_nil]
    have hs : splitFirstCI "<rp>".data
        (cond useRb ("<rb>".data ++ (base ++ "</rb>".data)) base) = none :=
      splitFirstCI_none_of _ _ hB
    simp only [bsplit, hs]
    exact hDel
  | true =>
    simp only [Bool.cond_true]
    have hs := splitFirstCI_append "<rp>".data
      (cond useRb ("<rb>".data ++ (base ++ "</rb>".data)) base)
      ("<rp>".data ++ (d1 ++ "</rp>".data)) hB
    rw [splitFirstCI_rp (d1 ++ "</rp>".data)] at hs
    simp only [Option.map_some'] at hs
    rw [List.append_nil] at hs
    simp only [bsplit, hs]
    exact hDel

theorem stripGloss (useRt2 useRp2 : Bool) (gloss d2 : List Char)
    (hg : ∀ c ∈ gloss, c ≠ '<') :
    deleteTag (bsplit "<rp>".data
      (gloss ++ (cond useRt2 "</rt>".data [] ++
        cond useRp2 ("<rp>".data ++ (d2 ++ "</rp>".data)) []))) = gloss := by
  have hG : NoHitSeg "<rp>".data (gloss ++ cond useRt2 "</rt>".data []) := by
    cases useRt2 with
    | false =>
      exact NoHitSeg_append (NoHitSeg_plain _ gloss hg) (NoHitSeg_nil _)
    | true =>
      exact NoHitSeg_append (NoHitSeg_plain _ gloss hg) noHit_rp_rtc
  have hDel : deleteTag (gloss ++ cond useRt2 "</rt>".data []) = gloss := by
    cases useRt2 with
    | false =>
      rw [show (cond false "</rt>".data [] : List Char) = [] from rfl,
        List.append_nil]
      exact deleteTag_plain gloss hg
    | true => exact deleteTag_rtc gloss hg
  cases useRp2 with
  | false =>
    simp only [Bool.cond_false, List.append_nil]
    have hs : splitFirstCI "<rp>".data (gloss ++ cond useRt2 "</rt>".data [])
        = none := splitFirstCI_none_of _ _ hG
    simp only [bsplit, hs]
    exact hDel
  | true =>
    simp only [Bool.cond_true]
    rw [← List.append_assoc]
    have hs := splitFirstCI_append "<rp>".data
      (gloss ++ cond useRt2 "</rt>".data [])
      ("<rp>".data ++ (d2 ++ "</rp>".data)) hG
    rw [splitFirstCI_rp (d2 ++ "</rp>".data)] at hs
    simp only [Option.map_some'] at hs
    rw [List.append_nil] at hs
    simp only [bsplit, hs]
    exact hDel

theorem genScan_fire (step) (f : Nat) (c : Char) (l out : List Char)
    (h : step (c :: l) = some (out, [])) :
    genScan step (f + 1) (c :: l) = out := by
  simp only [genScan, h, genScan_nil, List.append_nil]

theorem rubyStep_fire (O content C : List Char)
    (hO : ciEq "<ruby>".data O)
    (hcne : content ≠ [])
    (hnohit : NoHitSeg "</ruby>".data content)
    (hnl : ∀ c ∈ content, c ≠ '\n')
    (hC : ciEq "</ruby>".data C) :
    rubyStep (O ++ (content ++ C)) = some (rubyEmit content, []) := by
  have hsw : startsWithCI "<ruby>".data (O ++ (content ++ C)) = true :=
    startsWithCI_append O (content ++ C) hO.2
  have hOlen : O.length = 6 := hO.1
  have hdrop6 : (O ++ (content ++ C)).drop 6 = content ++ C := by
    rw [← hOlen]
    exact List.drop_left O (content ++ C)
  have hCne : C ≠ [] := by
    intro h
    subst h
    exact absurd hC.1 (by decide)
  have hfind : findRubyClose ((O ++ (content ++ C)).drop 6)
      = some content.length := by
    rw [hdrop6]
    exact findRubyClose_at content C hcne hnohit hnl hCne hC.2
  rw [show rubyStep (O ++ (content ++ C))
    = (if startsWithCI "<ruby>".data (O ++ (content ++ C)) = true then
        match findRubyClose ((O ++ (content ++ C)).drop 6) with
        | some k => some (rubyEmit (((O ++ (content ++ C)).drop 6).take k),
            ((O ++ (content ++ C)).drop 6).drop (k + 7))
        | none => none
      else none) from rfl, if_pos hsw, hfind]
  show some (rubyEmit (((O ++ (content ++ C)).drop 6).take content.length),
      ((O ++ (content ++ C)).drop 6).drop (content.length + 7)) = _
  rw [hdrop6]
  have hlen7 : C.length = 7 := hC.1
  have hdropAll : (content ++ C).drop (content.length + 7) = [] := by
    have hl : (content ++ C).length = content.length + 7 := by
      rw [List.length_append, hlen7]
    rw [← hl, List.drop_length]
  rw [hdropAll, List.take_left]

/-! Claim theorems (C6, C8). -/

/-- C8, counterexample: the round trip fails on strings containing `&`.
Encoding `"&#65;"` yields `"&amp;#65;"`; restoration first rewrites
`&amp;` back to `&`, recreating `&#65;`, which the numeric pass then
decodes to `"A"`.  Likewise `"&lt;"` comes back as `"<"` under the
canonical order. -/
theorem claim8_counterexample :
    restoreHTMLEntity (encodeFive "&#65;".data) = "A".data ∧
    ("A".data : List Char) ≠ "&#65;".data ∧
    restoreHTMLEntity (encodeFive "&lt;".data) = "<".data ∧
    ("<".data : List Char) ≠ "&lt;".data := by
  refine ⟨by decide, by decide, by decide, by decide⟩

/-- C8, amended: encoding the five reserved characters and then applying
`restoreHTMLEntity` reproduces the original for every string that
contains no ampersand (the other four reserved characters may occur
freely).  Strings containing `&` can be over-decoded, as the
counterexample shows. -/
theorem claim8_theorem (l : List Char) (h : ampFree l) :
    restoreHTMLEntity (encodeFive l) = l :=
  restore_encodeFive l h

/-- Witness for C8 on a string exercising all four other reserved
characters. -/
theorem claim8_witness :
    ampFree ("a<b>c\"d".data ++ [aposC] ++ "e".data) ∧
    restoreHTMLEntity (encodeFive ("a<b>c\"d".data ++ [aposC] ++ "e".data))
      = "a<b>c\"d".data ++ [aposC] ++ "e".data :=
  ⟨by decide, claim8_theorem ("a<b>c\"d".data ++ [aposC] ++ "e".data)
    (by decide)⟩

/-- C6: for every well-formed ruby span with a base portion and a gloss
portion — a case-insensitive `<ruby>`, an optional `<rb>`-wrapped or bare
base of plain runes, an optional `<rp>…</rp>` group, a case-insensitive
`<rt>`, a gloss of plain runes, an optional `</rt>`, an optional second
`<rp>…</rp>` group, and a case-insensitive `</ruby>` — the ruby pass
emits exactly `｜base《gloss》`, stripping the inner tags from the base
and the gloss portions. -/
theorem claim6_theorem (O T C base gloss d1 d2 : List Char)
    (useRb useRp1 useRt2 useRp2 : Bool)
    (hO : ciEq "<ruby>".data O) (hT : ciEq "<rt>".data T)
    (hC : ciEq "</ruby>".data C)
    (hb : ∀ c ∈ base, rubyPlain c) (hg : ∀ c ∈ gloss, rubyPlain c)
    (hd1 : ∀ c ∈ d1, rubyPlain c) (hd2 : ∀ c ∈ d2, rubyPlain c)
    (hbne : base ≠ []) (hgne : gloss ≠ []) :
    rubyToAozora (O ++ cond useRb ("<rb>".data ++ base ++ "</rb>".data) base
        ++ cond useRp1 ("<rp>".data ++ d1 ++ "</rp>".data) []
        ++ T ++ gloss ++ cond useRt2 "</rt>".data []
        ++ cond useRp2 ("<rp>".data ++ d2 ++ "</rp>".data) [] ++ C)
      = "｜".data ++ base ++ "《".data ++ gloss ++ "》".data := by
  obtain ⟨t1, t2, hTsh, ht1, ht2⟩ := ciEq_rt_shape hT
  subst hTsh
  obtain ⟨ht1n, ht2n, ht1lt, ht2lt, -, ht1a1, ht1a2, ht2a1, ht2a2⟩ :=
    rt_var_safe ht1 ht2
  have hb1 : ∀ c ∈ base, c ≠ '<' := fun c hc => (hb c hc).1
  have hbn : ∀ c ∈ base, c ≠ '\n' := fun c hc => (hb c hc).2.2.1
  have hba : ∀ c ∈ base, c ≠ '《' ∧ c ≠ '》' :=
    fun c hc => ⟨(hb c hc).2.2.2.1, (hb c hc).2.2.2.2⟩
  have hg1 : ∀ c ∈ gloss, c ≠ '<' := fun c hc => (hg c hc).1
  have hgn : ∀ c ∈ gloss, c ≠ '\n' := fun c hc => (hg c hc).2.2.1
  have hga : ∀ c ∈ gloss, c ≠ '《' ∧ c ≠ '》' :=
    fun c hc => ⟨(hg c hc).2.2.2.1, (hg c hc).2.2.2.2⟩
  have hd11 : ∀ c ∈ d1, c ≠ '<' := fun c hc => (hd1 c hc).1
  have hd1n : ∀ c ∈ d1, c ≠ '\n' := fun c hc => (hd1 c hc).2.2.1
  have hd1a : ∀ c ∈ d1, c ≠ '《' ∧ c ≠ '》' :=
    fun c hc => ⟨(hd1 c hc).2.2.2.1, (hd1 c hc).2.2.2.2⟩
  have hd21 : ∀ c ∈ d2, c ≠ '<' := fun c hc => (hd2 c hc).1
  have hd2n : ∀ c ∈ d2, c ≠ '\n' := fun c hc => (hd2 c hc).2.2.1
  have hd2a : ∀ c ∈ d2, c ≠ '《' ∧ c ≠ '》' :=
    fun c hc => ⟨(hd2 c hc).2.2.2.1, (hd2 c hc).2.2.2.2⟩
  simp only [List.append_assoc]
  have hOan : ∀ c ∈ O, c ≠ '《' ∧ c ≠ '》' := fun c hc =>
    ⟨ciEq_ne_char hO '《' (by decide) c hc,
     ciEq_ne_char hO '》' (by decide) c hc⟩
  have hCan : ∀ c ∈ C, c ≠ '《' ∧ c ≠ '》' := fun c hc =>
    ⟨ciEq_ne_char hC '《' (by decide) c hc,
     ciEq_ne_char hC '》' (by decide) c hc⟩
  have hnil : ∀ c ∈ ([] : List Char), c ≠ '《' ∧ c ≠ '》' := by
    intro c hc; simp at hc
  have hspan_an : ∀ c ∈ O ++ ((cond useRb ("<rb>".data ++ (base ++ "</rb>".data)) base) ++ ((cond useRp1 ("<rp>".data ++ (d1 ++ "</rp>".data)) []) ++ (['<', t1, t2, '>'] ++ (gloss ++
      ((cond useRt2 "</rt>".data []) ++ ((cond useRp2 ("<rp>".data ++ (d2 ++ "</rp>".data)) []) ++ C)))))), c ≠ '《' ∧ c ≠ '》' :=
    forall_mem_append2 hOan (forall_mem_append2
      (forall_mem_cond useRb (forall_mem_append2 (by decide)
        (forall_mem_append2 hba (by decide))) hba)
      (forall_mem_append2
        (forall_mem_cond useRp1 (forall_mem_append2 (by decide)
          (forall_mem_append2 hd1a (by decide))) hnil)
        (forall_mem_append2
          (forall_mem_quad ⟨by decide, by decide⟩ ⟨ht1a1, ht1a2⟩
            ⟨ht2a1, ht2a2⟩ ⟨by decide, by decide⟩)
          (forall_mem_append2 hga
            (forall_mem_append2
              (forall_mem_cond useRt2 (by decide) hnil)
              (forall_mem_append2
                (forall_mem_cond useRp2 (forall_mem_append2 (by decide)
                  (forall_mem_append2 hd2a (by decide))) hnil)
                hCan))))))
  unfold rubyToAozora
  rw [swapAngle_id_of _ hspan_an]
  unfold runPass
  have hassoc : (cond useRb ("<rb>".data ++ (base ++ "</rb>".data)) base) ++ ((cond useRp1 ("<rp>".data ++ (d1 ++ "</rp>".data)) []) ++ (['<', t1, t2, '>'] ++ (gloss ++
      ((cond useRt2 "</rt>".data []) ++ ((cond useRp2 ("<rp>".data ++ (d2 ++ "</rp>".data)) []) ++ C))))) = ((cond useRb ("<rb>".data ++ (base ++ "</rb>".data)) base) ++ ((cond useRp1 ("<rp>".data ++ (d1 ++ "</rp>".data)) []) ++ (['<', t1, t2, '>'] ++ (gloss ++ ((cond useRt2 "</rt>".data []) ++ (cond useRp2 ("<rp>".data ++ (d2 ++ "</rp>".data)) [])))))) ++ C := by
    simp only [List.append_assoc]
  rw [hassoc]
  have hnilnl : ∀ c ∈ ([] : List Char), c ≠ '\n' := by
    intro c hc; simp at hc
  have hcontent_nl : ∀ c ∈ ((cond useRb ("<rb>".data ++ (base ++ "</rb>".data)) base) ++ ((cond useRp1 ("<rp>".data ++ (d1 ++ "</rp>".data)) []) ++ (['<', t1, t2, '>'] ++ (gloss ++ ((cond useRt2 "</rt>".data []) ++ (cond useRp2 ("<rp>".data ++ (d2 ++ "</rp>".data)) [])))))), c ≠ '\n' :=
    forall_mem_append2
      (forall_mem_cond useRb (forall_mem_append2 (by decide)
        (forall_mem_append2 hbn (by decide))) hbn)
      (forall_mem_append2
        (forall_mem_cond useRp1 (forall_mem_append2 (by decide)
          (forall_mem_append2 hd1n (by decide))) hnilnl)
        (forall_mem_append2
          (forall_mem_quad (by decide) ht1n ht2n (by decide))
          (forall_mem_append2 hgn
            (forall_mem_append2
              (forall_mem_cond useRt2 (by decide) hnilnl)
              (forall_mem_cond useRp2 (forall_mem_append2 (by decide)
                (forall_mem_append2 hd2n (by decide))) hnilnl)))))
  have hcontent_nohit : NoHitSeg "</ruby>".data ((cond useRb ("<rb>".data ++ (base ++ "</rb>".data)) base) ++ ((cond useRp1 ("<rp>".data ++ (d1 ++ "</rp>".data)) []) ++ (['<', t1, t2, '>'] ++ (gloss ++ ((cond useRt2 "</rt>".data []) ++ (cond useRp2 ("<rp>".data ++ (d2 ++ "</rp>".data)) [])))))) :=
    NoHitSeg_append
      (noHit_cond _ useRb (NoHitSeg_append noHit_close_rb
        (NoHitSeg_append (NoHitSeg_plain _ base hb1) noHit_close_rbc))
        (NoHitSeg_plain _ base hb1))
      (NoHitSeg_append
        (noHit_cond _ useRp1 (NoHitSeg_append noHit_close_rp
          (NoHitSeg_append (NoHitSeg_plain _ d1 hd11) noHit_close_rpc))
          (NoHitSeg_nil _))
        (NoHitSeg_append (noHit_close_rt_var ht1 ht2)
          (NoHitSeg_append (NoHitSeg_plain _ gloss hg1)
            (NoHitSeg_append
              (noHit_cond _ useRt2 noHit_close_rtc (NoHitSeg_nil _))
              (noHit_cond _ useRp2 (NoHitSeg_append noHit_close_rp
                (NoHitSeg_append (NoHitSeg_plain _ d2 hd21) noHit_close_rpc))
                (NoHitSeg_nil _))))))
  have hcne : ((cond useRb ("<rb>".data ++ (base ++ "</rb>".data)) base) ++ ((cond useRp1 ("<rp>".data ++ (d1 ++ "</rp>".data)) []) ++ (['<', t1, t2, '>'] ++ (gloss ++ ((cond useRt2 "</rt>".data []) ++ (cond useRp2 ("<rp>".data ++ (d2 ++ "</rp>".data)) [])))))) ≠ ([] : List Char) :=
    append_cons_ne_nil _ _ _ '<'
  have hstep := rubyStep_fire O ((cond useRb ("<rb>".data ++ (base ++ "</rb>".data)) base) ++ ((cond useRp1 ("<rp>".data ++ (d1 ++ "</rp>".data)) []) ++ (['<', t1, t2, '>'] ++ (gloss ++ ((cond useRt2 "</rt>".data []) ++ (cond useRp2 ("<rp>".data ++ (d2 ++ "</rp>".data)) [])))))) C hO hcne hcontent_nohit hcontent_nl hC
  have hB_rt : NoHitSeg "<rt>".data (cond useRb ("<rb>".data ++ (base ++ "</rb>".data)) base) :=
    noHit_cond _ useRb (NoHitSeg_append noHit_rt_rb
      (NoHitSeg_append (NoHitSeg_plain _ base hb1) noHit_rt_rbc))
      (NoHitSeg_plain _ base hb1)
  have hP1_rt : NoHitSeg "<rt>".data (cond useRp1 ("<rp>".data ++ (d1 ++ "</rp>".data)) []) :=
    noHit_cond _ useRp1 (NoHitSeg_append noHit_rt_rp
      (NoHitSeg_append (NoHitSeg_plain _ d1 hd11) noHit_rt_rpc))
      (NoHitSeg_nil _)
  have hsp2 := splitFirstCI_append "<rt>".data (cond useRp1 ("<rp>".data ++ (d1 ++ "</rp>".data)) [])
    (['<', t1, t2, '>'] ++ (gloss ++ ((cond useRt2 "</rt>".data []) ++ (cond useRp2 ("<rp>".data ++ (d2 ++ "</rp>".data)) [])))) hP1_rt
  rw [splitT ht1 ht2 (gloss ++ ((cond useRt2 "</rt>".data []) ++ (cond useRp2 ("<rp>".data ++ (d2 ++ "</rp>".data)) [])))] at hsp2
  simp only [Option.map_some'] at hsp2
  have hsp1 := splitFirstCI_append "<rt>".data (cond useRb ("<rb>".data ++ (base ++ "</rb>".data)) base)
    ((cond useRp1 ("<rp>".data ++ (d1 ++ "</rp>".data)) []) ++ (['<', t1, t2, '>'] ++ (gloss ++ ((cond useRt2 "</rt>".data []) ++ (cond useRp2 ("<rp>".data ++ (d2 ++ "</rp>".data)) []))))) hB_rt
  rw [hsp2] at hsp1
  simp only [Option.map_some'] at hsp1
  rw [List.append_nil] at hsp1
  have hemit : rubyEmit ((cond useRb ("<rb>".data ++ (base ++ "</rb>".data)) base) ++ ((cond useRp1 ("<rp>".data ++ (d1 ++ "</rp>".data)) []) ++ (['<', t1, t2, '>'] ++ (gloss ++ ((cond useRt2 "</rt>".data []) ++ (cond useRp2 ("<rp>".data ++ (d2 ++ "</rp>".data)) []))))))
      = "｜".data ++ deleteTag (bsplit "<rp>".data ((cond useRb ("<rb>".data ++ (base ++ "</rb>".data)) base) ++ (cond useRp1 ("<rp>".data ++ (d1 ++ "</rp>".data)) [])))
        ++ "《".data ++ deleteTag (bsplit "<rp>".data (gloss ++ ((cond useRt2 "</rt>".data []) ++ (cond useRp2 ("<rp>".data ++ (d2 ++ "</rp>".data)) [])))) ++ "》".data := by
    rw [show rubyEmit ((cond useRb ("<rb>".data ++ (base ++ "</rb>".data)) base) ++ ((cond useRp1 ("<rp>".data ++ (d1 ++ "</rp>".data)) []) ++ (['<', t1, t2, '>'] ++ (gloss ++ ((cond useRt2 "</rt>".data []) ++ (cond useRp2 ("<rp>".data ++ (d2 ++ "</rp>".data)) []))))))
      = (match splitFirstCI "<rt>".data ((cond useRb ("<rb>".data ++ (base ++ "</rb>".data)) base) ++ ((cond useRp1 ("<rp>".data ++ (d1 ++ "</rp>".data)) []) ++ (['<', t1, t2, '>'] ++ (gloss ++ ((cond useRt2 "</rt>".data []) ++ (cond useRp2 ("<rp>".data ++ (d2 ++ "</rp>".data)) [])))))) with
         | none => deleteTag ((cond useRb ("<rb>".data ++ (base ++ "</rb>".data)) base) ++ ((cond useRp1 ("<rp>".data ++ (d1 ++ "</rp>".data)) []) ++ (['<', t1, t2, '>'] ++ (gloss ++ ((cond useRt2 "</rt>".data []) ++ (cond useRp2 ("<rp>".data ++ (d2 ++ "</rp>".data)) []))))))
         | some p =>
           "｜".data ++ deleteTag (bsplit "<rp>".data p.1) ++ "《".data ++
             deleteTag (bsplit "<rp>".data p.2) ++ "》".data) from rfl, hsp1]
  cases O with
  | nil => exact absurd hO.1 (by decide)
  | cons o O2 =>
    rw [show genScan rubyStep (((o :: O2) ++ (((cond useRb ("<rb>".data ++ (base ++ "</rb>".data)) base) ++ ((cond useRp1 ("<rp>".data ++ (d1 ++ "</rp>".data)) []) ++ (['<', t1, t2, '>'] ++ (gloss ++ ((cond useRt2 "</rt>".data []) ++ (cond useRp2 ("<rp>".data ++ (d2 ++ "</rp>".data)) [])))))) ++ C)).length)
        ((o :: O2) ++ (((cond useRb ("<rb>".data ++ (base ++ "</rb>".data)) base) ++ ((cond useRp1 ("<rp>".data ++ (d1 ++ "</rp>".data)) []) ++ (['<', t1, t2, '>'] ++ (gloss ++ ((cond useRt2 "</rt>".data []) ++ (cond useRp2 ("<rp>".data ++ (d2 ++ "</rp>".data)) [])))))) ++ C)) = rubyEmit ((cond useRb ("<rb>".data ++ (base ++ "</rb>".data)) base) ++ ((cond useRp1 ("<rp>".data ++ (d1 ++ "</rp>".data)) []) ++ (['<', t1, t2, '>'] ++ (gloss ++ ((cond useRt2 "</rt>".data []) ++ (cond useRp2 ("<rp>".data ++ (d2 ++ "</rp>".data)) [])))))) from
      genScan_fire rubyStep _ o _ _ hstep]
    rw [hemit, stripBase useRb useRp1 base d1 hb1 hd11,
      stripGloss useRt2 useRp2 gloss d2 hg1]
    simp only [List.append_assoc]

/-- Witness for C6: a mixed-case ruby span carrying every optional
sub-tag reduces to `｜漢字《かんじ》`. -/
theorem claim6_witness :
    ciEq "<ruby>".data "<RuBy>".data ∧ (∀ c ∈ "漢字".data, rubyPlain c) ∧
    rubyToAozora ("<RuBy>".data
        ++ cond true ("<rb>".data ++ "漢字".data ++ "</rb>".data) "漢字".data
        ++ cond true ("<rp>".data ++ "（".data ++ "</rp>".data) []
        ++ "<rt>".data ++ "かんじ".data ++ cond true "</rt>".data []
        ++ cond true ("<rp>".data ++ "）".data ++ "</rp>".data) []
        ++ "</ruby>".data)
      = "｜".data ++ "漢字".data ++ "《".data ++ "かんじ".data ++ "》".data :=
  ⟨by decide, by decide,
    claim6_theorem "<RuBy>".data "<rt>".data "</ruby>".data "漢字".data
      "かんじ".data "（".data "）".data true true true true (by decide)
      (by decide) (by decide) (by decide) (by decide) (by decide) (by decide)
      (by decide) (by decide)⟩

end Narou
